import Mathlib

/-!
Verification development for the spike-exchange and event-routing subsystem
("communicator") of the arbor repository, embedded shallowly from
`src/arbor/communication/communicator.hpp`.  Components of the repository that
the communicator uses but whose sources are not part of the code base at hand
(`connection.hpp`, `spike.hpp`, `gathered_vector.hpp`, the distributed context
and the partition helpers) are modelled from the specification, and are marked
as such in their doc comments.  Machine reals (the `time_type` / weight values)
are embedded as rationals; the one place where the distinction between the
largest finite value and the real infinity matters (`min_delay`) uses
`WithTop ℚ`, whose top element models the floating-point `+∞`.
-/

namespace ArborComm

/-- Modelled from the spec: `cell_member = (gid, lid)`; `cell_member_type` is
declared in `common_types.hpp`, which is not under src/. -/
structure cell_member_type where
  gid : Nat
  index : Nat
deriving DecidableEq, Repr, Inhabited

/-- Modelled from the spec: the total order on `cell_member` is lexicographic
by `(gid, lid)`. -/
def cm_lt (a b : cell_member_type) : Bool :=
  a.gid < b.gid || (a.gid == b.gid && a.index < b.index)

/-- Modelled from the spec: a spike is `(source : cell_member, time : real)`
(`spike.hpp` is not under src/); times are embedded as rationals. -/
structure spike where
  source : cell_member_type
  time : ℚ
deriving DecidableEq, Inhabited

/-- Modelled from the spec: the connection data supplied by the recipe, a tuple
`(source, dest, weight, delay)` (see spec section 6.1). -/
structure raw_connection where
  source : cell_member_type
  dest : cell_member_type
  weight : ℚ
  delay : ℚ
deriving DecidableEq

/-- A stored connection record; the fields are exactly the ones written by the
communicator constructor (communicator.hpp line 116):
`{c.source, c.dest, c.weight, c.delay, cell.index_on_domain}`. -/
structure connection where
  source : cell_member_type
  dest : cell_member_type
  weight : ℚ
  delay : ℚ
  index_on_domain : Nat
deriving DecidableEq, Inhabited

/-- Modelled from the spec: a delivered event `(target_local_index, weight, time)`. -/
structure pse_event where
  target : Nat
  weight : ℚ
  time : ℚ
deriving DecidableEq, Inhabited

/-- Modelled from the spec: `connection.make_event(spike)` produces the event
whose time is `spike.time + connection.delay`, with no rounding or clamping
(`connection.hpp` is not under src/). -/
def connection.make_event (c : connection) (s : spike) : pse_event :=
  ⟨c.index_on_domain, c.weight, s.time + c.delay⟩

/-- Modelled from the spec: strict lexicographic order on connections, primary
key `source`, secondary key `dest` (spec section 3: "lexicographic on
`(source, dest, …)`"). -/
def conn_lt (a b : connection) : Bool :=
  cm_lt a.source b.source || (a.source == b.source && cm_lt a.dest b.dest)

/-- Non-strict total connection order, as the negation of the reversed strict
order (the order used by the per-bucket sort of the constructor). -/
def conn_le (a b : connection) : Prop := conn_lt b a = false

/-- Non-strict order on spikes by `source` only: the key order used by the
spike sort in `exchange` and by the binary searches of `make_event_queues`. -/
def sp_le (a b : spike) : Prop := cm_lt b.source a.source = false

section OrderLemmas

theorem cm_lt_asymm {a b : cell_member_type} (h : cm_lt a b = true) :
    cm_lt b a = false := by
  rcases a with ⟨ag, ai⟩; rcases b with ⟨bg, bi⟩
  simp only [cm_lt, Bool.or_eq_true, Bool.and_eq_true, decide_eq_true_eq, beq_iff_eq,
    Bool.or_eq_false_iff, Bool.and_eq_false_iff, decide_eq_false_iff_not, beq_eq_false_iff_ne,
    ne_eq] at h ⊢
  omega

theorem cm_lt_trans {a b c : cell_member_type} (h1 : cm_lt a b = true)
    (h2 : cm_lt b c = true) : cm_lt a c = true := by
  rcases a with ⟨ag, ai⟩; rcases b with ⟨bg, bi⟩; rcases c with ⟨cg, ci⟩
  simp only [cm_lt, Bool.or_eq_true, Bool.and_eq_true, decide_eq_true_eq, beq_iff_eq] at h1 h2 ⊢
  omega

theorem cm_eq_of_not_lt {a b : cell_member_type} (h1 : cm_lt a b = false)
    (h2 : cm_lt b a = false) : a = b := by
  rcases a with ⟨ag, ai⟩; rcases b with ⟨bg, bi⟩
  simp only [cm_lt, Bool.or_eq_false_iff, Bool.and_eq_false_iff, decide_eq_false_iff_not,
    beq_eq_false_iff_ne, ne_eq, cell_member_type.mk.injEq] at h1 h2 ⊢
  omega

theorem cm_lt_of_lt_of_not_lt {a b c : cell_member_type} (h1 : cm_lt a b = true)
    (h2 : cm_lt c b = false) : cm_lt a c = true := by
  rcases a with ⟨ag, ai⟩; rcases b with ⟨bg, bi⟩; rcases c with ⟨cg, ci⟩
  simp only [cm_lt, Bool.or_eq_true, Bool.and_eq_true, decide_eq_true_eq, beq_iff_eq,
    Bool.or_eq_false_iff, Bool.and_eq_false_iff, decide_eq_false_iff_not,
    beq_eq_false_iff_ne, ne_eq] at h1 h2 ⊢
  omega

theorem cm_lt_of_not_lt_of_lt {a b c : cell_member_type} (h1 : cm_lt b a = false)
    (h2 : cm_lt b c = true) : cm_lt a c = true := by
  rcases a with ⟨ag, ai⟩; rcases b with ⟨bg, bi⟩; rcases c with ⟨cg, ci⟩
  simp only [cm_lt, Bool.or_eq_true, Bool.and_eq_true, decide_eq_true_eq, beq_iff_eq,
    Bool.or_eq_false_iff, Bool.and_eq_false_iff, decide_eq_false_iff_not,
    beq_eq_false_iff_ne, ne_eq] at h1 h2 ⊢
  omega

theorem cm_lt_irrefl (a : cell_member_type) : cm_lt a a = false := by
  rcases a with ⟨ag, ai⟩
  simp [cm_lt]

theorem cm_lt_total (a b : cell_member_type) : cm_lt a b = false ∨ cm_lt b a = false := by
  rcases a with ⟨ag, ai⟩; rcases b with ⟨bg, bi⟩
  simp only [cm_lt, Bool.or_eq_false_iff, Bool.and_eq_false_iff, decide_eq_false_iff_not,
    beq_eq_false_iff_ne, ne_eq]
  omega

instance : DecidableRel conn_le := by
  intro a b; unfold conn_le; infer_instance

instance : DecidableRel sp_le := by
  intro a b; unfold sp_le; infer_instance

theorem conn_lt_helper {a b c : connection} (h1 : conn_lt b a = false)
    (h2 : conn_lt c b = false) : conn_lt c a = false := by
  rcases a with ⟨⟨asg, asi⟩, ⟨adg, adi⟩, aw, ad, ai⟩
  rcases b with ⟨⟨bsg, bsi⟩, ⟨bdg, bdi⟩, bw, bd, bi⟩
  rcases c with ⟨⟨csg, csi⟩, ⟨cdg, cdi⟩, cw, cd, ci⟩
  simp only [conn_lt, cm_lt, Bool.or_eq_false_iff, Bool.and_eq_false_iff,
    decide_eq_false_iff_not, beq_eq_false_iff_ne, ne_eq, cell_member_type.mk.injEq,
    not_and, beq_iff_eq, Bool.and_eq_true, Bool.or_eq_true, decide_eq_true_eq] at h1 h2 ⊢
  omega

theorem conn_lt_total (a b : connection) : conn_lt a b = false ∨ conn_lt b a = false := by
  rcases a with ⟨⟨asg, asi⟩, ⟨adg, adi⟩, aw, ad, ai⟩
  rcases b with ⟨⟨bsg, bsi⟩, ⟨bdg, bdi⟩, bw, bd, bi⟩
  simp only [conn_lt, cm_lt, Bool.or_eq_false_iff, Bool.and_eq_false_iff,
    decide_eq_false_iff_not, beq_eq_false_iff_ne, ne_eq, cell_member_type.mk.injEq, not_and]
  omega

instance : IsTrans connection conn_le := by
  refine ⟨fun a b c h1 h2 => ?_⟩
  unfold conn_le at *
  exact conn_lt_helper h1 h2

instance : IsTotal connection conn_le := by
  refine ⟨fun a b => ?_⟩
  unfold conn_le
  exact (conn_lt_total b a).elim Or.inl Or.inr

instance : IsTrans spike sp_le := by
  refine ⟨fun a b c h1 h2 => ?_⟩
  unfold sp_le at *
  cases hab : cm_lt c.source a.source
  · rfl
  · exact absurd (cm_lt_of_lt_of_not_lt hab h1) (by simp [h2])

instance : IsTotal spike sp_le := by
  refine ⟨fun a b => ?_⟩
  unfold sp_le
  exact cm_lt_total b.source a.source

end OrderLemmas

/-- Modelled from the spec: the recipe interface consumed by the constructor
(spec section 6.1); only `connections_on` is used. -/
structure recipe where
  connections_on : Nat → List raw_connection

/-- Modelled from the spec: the domain decomposition interface consumed by the
constructor: the local groups (each carrying its gid list) and the
gid-to-domain map.  `num_local_cells` is the number of gids laid out group by
group, matching the flat layout the constructor builds. -/
structure domain_decomposition where
  groups : List (List Nat)
  gid_domain : Nat → Nat

/-- Flat list of local gids, group by group (communicator.hpp lines 79 to 83). -/
def flat_gids (dd : domain_decomposition) : List Nat := dd.groups.flatten

def domain_decomposition.num_local_cells (dd : domain_decomposition) : Nat :=
  (flat_gids dd).length

/-- Cache record for one local cell (communicator.hpp lines 57 to 65). -/
structure gid_info where
  gid : Nat
  index_on_domain : Nat
  conns : List raw_connection

/-- The `gid_infos` vector (communicator.hpp lines 85 to 91): entry `i` holds
gid `gids[i]`, index-on-domain `i`, and the recipe connections of that gid. -/
def gid_infos (rec : recipe) (dd : domain_decomposition) : List gid_info :=
  (flat_gids dd).enum.map (fun p => ⟨p.2, p.1, rec.connections_on p.2⟩)

/-- The stream of stored connection records in construction order: for each
cell in order, its recipe connections tagged with the cell's
`index_on_domain`.  The loops at communicator.hpp lines 98 to 104 and 113 to
118 both traverse exactly this stream. -/
def flat_conns (rec : recipe) (dd : domain_decomposition) : List connection :=
  (gid_infos rec dd).flatMap
    (fun g => g.conns.map
      (fun c => ⟨c.source, c.dest, c.weight, c.delay, g.index_on_domain⟩))

/-- The `src_counts` accumulation loop (communicator.hpp lines 97 to 104):
starting from `num_domains` zeroes, bump the counter of the source domain of
each connection in stream order. -/
def src_counts (gd : Nat → Nat) (num_domains : Nat) (cs : List connection) : List Nat :=
  cs.foldl
    (fun acc c => acc.set (gd c.source.gid) (acc.getD (gd c.source.gid) 0 + 1))
    (List.replicate num_domains 0)

/-- Modelled from the spec: `algorithms::make_index` (not under src/) produces
the prefix sum of the counts, of length `counts.length + 1`. -/
def make_index (counts : List Nat) : List Nat :=
  (List.range (counts.length + 1)).map (fun d => (counts.take d).sum)

/-- The bucket placement loop (communicator.hpp lines 112 to 119): each
connection is written at the next free slot of its source-domain bucket, and
that bucket's pointer advances by one. -/
def place (gd : Nat → Nat) : List connection → List connection → List Nat →
    List connection × List Nat
  | [], arr, offs => (arr, offs)
  | c :: cs, arr, offs =>
      place gd cs (arr.set (offs.getD (gd c.source.gid) 0) c)
        (offs.set (gd c.source.gid) (offs.getD (gd c.source.gid) 0 + 1))

/-- Half-open slice `l[a, b)` of a list, the analogue of
`util::subrange_view(l, a, b)`. -/
def sliceOf (l : List α) (a b : Nat) : List α := (l.drop a).take (b - a)

/-- The per-bucket sort (communicator.hpp line 132): `util::sort` with the
total connection order. -/
def sortConn (l : List connection) : List connection := l.insertionSort conn_le

structure communicator where
  num_local_cells_ : Nat
  num_domains_ : Nat
  connections_ : List connection
  connection_part_ : List Nat
  index_divisions_ : List Nat
  num_spikes_ : Nat

/-- The `connection_part_` prefix-sum array of the constructor
(communicator.hpp line 110). -/
def conn_part (gd : Nat → Nat) (num_domains : Nat) (cs : List connection) : List Nat :=
  make_index (src_counts gd num_domains cs)

/-- The scattered connection array before the per-bucket sorts: placement of
the connection stream into a default-initialized array of length `n_cons`,
with the bucket pointers starting at `connection_part`
(communicator.hpp lines 109 to 119). -/
def scattered (gd : Nat → Nat) (num_domains : Nat) (cs : List connection) :
    List connection :=
  (place gd cs (List.replicate cs.length default) (conn_part gd num_domains cs)).1

/-- The communicator constructor (communicator.hpp lines 45 to 134).  The
in-place per-bucket sorts of lines 130 to 133 are represented by re-assembling
the scattered array as the concatenation of its sorted buckets; the buckets
tile the array because `connection_part` is the prefix sum of the bucket
sizes. -/
def communicator.ctor (rec : recipe) (dd : domain_decomposition)
    (num_domains : Nat) : communicator :=
  let cs := flat_conns rec dd
  let part := conn_part dd.gid_domain num_domains cs
  let scat := scattered dd.gid_domain num_domains cs
  { num_local_cells_ := (flat_gids dd).length
    num_domains_ := num_domains
    connections_ :=
      (List.range num_domains).flatMap
        (fun d => sortConn (sliceOf scat (part.getD d 0) (part.getD (d + 1) 0)))
    connection_part_ := part
    index_divisions_ := make_index (dd.groups.map (fun g => g.length))
    num_spikes_ := 0 }

/-- Time values extended with the floating-point infinity: finite values are
rationals and `⊤` models `+∞`. -/
abbrev time_inf := WithTop ℚ

/-- The value of `std::numeric_limits<time_type>::max()` for the
single-precision `time_type` of the source: the largest finite value,
`(2 - 2 ^ (-23)) * 2 ^ 127`.  It is finite, strictly below the type's `+∞`. -/
def time_max : ℚ := 2 ^ 128 - 2 ^ 104

/-- The local fold of `min_delay` (communicator.hpp lines 143 to 147):
`local_min` starts at `numeric_limits::max()` and takes the min with each
stored connection's delay. -/
def local_min_delay (cs : List connection) : time_inf :=
  cs.foldl (fun m c => min m ((c.delay : ℚ) : time_inf)) ((time_max : ℚ) : time_inf)

/-- Modelled from the spec: the distributed `min` reduction, an allreduce-min
over the participating domains (the distributed context is not under src/).
`⊤` is the neutral element of `min`; the reduction is only applied to at least
one participant. -/
def dist_min (xs : List time_inf) : time_inf := xs.foldl min ⊤

/-- `min_delay` over the world: every domain folds its local connection table
and the results are combined by the distributed min reduction
(communicator.hpp lines 143 to 150). -/
def min_delay_world (tables : List (List connection)) : time_inf :=
  dist_min (tables.map local_min_delay)

/-- Modelled from the spec: `gathered_vector` pairs the flat gathered values
with the per-domain partition (`gathered_vector.hpp` is not under src/). -/
structure gathered_vector where
  values : List spike
  partition : List Nat

/-- Modelled from the spec: `gather_spikes` concatenates the per-domain spike
lists, so slice `d` of the result is exactly domain `d`'s input in its input
order, and the partition records the offsets (spec section 6.1). -/
def gather_spikes (locals : List (List spike)) : gathered_vector :=
  ⟨locals.flatten, make_index (locals.map (fun l => l.length))⟩

/-- The spike sort of `exchange` (communicator.hpp line 159): sort by source;
the source uses `std::sort` whose tie order is arbitrary, refined here by a
deterministic insertion sort. -/
def sort_spikes (l : List spike) : List spike := l.insertionSort sp_le

/-- World view of `exchange` (communicator.hpp lines 156 to 169): every domain
sorts its local spikes, the transport gathers them, and the calling domain
adds the global spike count to its `num_spikes_` counter. -/
def communicator.exchange (c : communicator) (world_local : List (List spike)) :
    gathered_vector × communicator :=
  let g := gather_spikes (world_local.map sort_spikes)
  (g, { c with num_spikes_ := c.num_spikes_ + g.values.length })

/-- `reset` (communicator.hpp lines 251 to 253). -/
def communicator.reset (c : communicator) : communicator :=
  { c with num_spikes_ := 0 }

/-- `num_spikes` accessor (communicator.hpp line 241). -/
def communicator.num_spikes (c : communicator) : Nat := c.num_spikes_

/-- The connections-outer strategy (communicator.hpp lines 211 to 223): walk
the connections; for each one take `std::equal_range` of the remaining spikes
for the connection's source (on a partitioned range: drop the spikes whose
source is below the connection's, then take the run with equal source), emit
one event per spike of the run, and continue from the lower bound. -/
def cons_outer : List connection → List spike → List pse_event
  | [], _ => []
  | _ :: _, [] => []
  | c :: cs, s :: ss =>
      let lower := (s :: ss).dropWhile (fun s0 => cm_lt s0.source c.source)
      let run := lower.takeWhile (fun s0 => ! cm_lt c.source s0.source)
      run.map c.make_event ++ cons_outer cs lower

/-- The spikes-outer strategy (communicator.hpp lines 224 to 236): walk the
spikes; for each one take `std::equal_range` of the remaining connections for
the spike's source, emit one event per connection of the run, and continue
from the lower bound. -/
def spikes_outer : List connection → List spike → List pse_event
  | [], _ => []
  | _ :: _, [] => []
  | cons@(_ :: _), s :: ss =>
      let lower := cons.dropWhile (fun c0 => cm_lt c0.source s.source)
      let run := lower.takeWhile (fun c0 => ! cm_lt s.source c0.source)
      run.map (fun c0 => c0.make_event s) ++ spikes_outer lower ss
  termination_by _ sps => sps.length

/-- The connection slice of source domain `dom`:
`subrange_view(connections_, cp[dom], cp[dom+1])` (communicator.hpp line 192). -/
def conn_slice (conns : List connection) (cpart : List Nat) (dom : Nat) : List connection :=
  sliceOf conns (cpart.getD dom 0) (cpart.getD (dom + 1) 0)

/-- The spike slice of source domain `dom`:
`subrange_view(global_spikes.values(), sp[dom], sp[dom+1])`
(communicator.hpp line 193). -/
def spike_slice (g : gathered_vector) (dom : Nat) : List spike :=
  sliceOf g.values (g.partition.getD dom 0) (g.partition.getD (dom + 1) 0)

/-- Event list produced for one source domain `dom` (the loop body at
communicator.hpp lines 191 to 237), including the strategy predicate
`cons.size() < spks.size()` of line 211. -/
def events_for_domain (conns : List connection) (cpart : List Nat)
    (g : gathered_vector) (dom : Nat) : List pse_event :=
  let cons := conn_slice conns cpart dom
  let spks := spike_slice g dom
  if cons.length < spks.length then cons_outer cons spks else spikes_outer cons spks

/-- Append events to the per-cell queues: each produced event is pushed onto
`queues[index_on_domain]` (the pushes at communicator.hpp lines 217 and 230;
`make_event`'s target is the connection's `index_on_domain`). -/
def push_events (queues : List (List pse_event)) (evs : List pse_event) :
    List (List pse_event) :=
  evs.foldl (fun qs e => qs.set e.target (qs.getD e.target [] ++ [e])) queues

/-- `make_event_queues` (communicator.hpp lines 179 to 238): for each source
domain in order, match the domain's connection slice against its spike slice
with the chosen strategy and append the produced events to the caller-owned
queues. -/
def communicator.make_event_queues (c : communicator) (g : gathered_vector)
    (queues : List (List pse_event)) : List (List pse_event) :=
  (List.range c.num_domains_).foldl
    (fun qs dom =>
      push_events qs (events_for_domain c.connections_ c.connection_part_ g dom))
    queues

section ListHelpers

variable {α : Type _} {β : Type _}

theorem flatMap_congr_mem {l : List α} {f g : α → List β}
    (h : ∀ a ∈ l, f a = g a) : l.flatMap f = l.flatMap g := by
  induction l with
  | nil => rfl
  | cons x xs ih =>
      simp only [List.flatMap_cons]
      rw [h x (by simp), ih (fun a ha => h a (by simp [ha]))]

theorem flatMap_perm_mem {l : List α} {f g : α → List β}
    (h : ∀ a ∈ l, (f a).Perm (g a)) : (l.flatMap f).Perm (l.flatMap g) := by
  induction l with
  | nil => exact List.Perm.refl _
  | cons x xs ih =>
      simp only [List.flatMap_cons]
      exact (h x (by simp)).append (ih fun a ha => h a (by simp [ha]))

theorem filter_map_eq_flatMap (p : α → Bool) (f : α → β) (l : List α) :
    (l.filter p).map f = l.flatMap (fun x => if p x then [f x] else []) := by
  induction l with
  | nil => rfl
  | cons x xs ih =>
      cases h : p x <;> simp [List.filter_cons, List.flatMap_cons, h, ih]

theorem getD_set_self (l : List α) {i : Nat} (x d : α) (h : i < l.length) :
    (l.set i x).getD i d = x := by
  rw [List.getD_eq_getElem?_getD, List.getElem?_set_self h]
  rfl

theorem getD_set_ne (l : List α) {i j : Nat} (x d : α) (h : i ≠ j) :
    (l.set i x).getD j d = l.getD j d := by
  rw [List.getD_eq_getElem?_getD, List.getElem?_set_ne h, ← List.getD_eq_getElem?_getD]

theorem list_eq_of_getD {l1 l2 : List α} (dflt : α) (hl : l1.length = l2.length)
    (h : ∀ i, i < l1.length → l1.getD i dflt = l2.getD i dflt) : l1 = l2 := by
  refine List.ext_getElem hl (fun n h1 h2 => ?_)
  have := h n h1
  rwa [List.getD_eq_getElem _ _ h1, List.getD_eq_getElem _ _ h2] at this

/-- Start offset of the `d`-th block inside the concatenation of `ls`. -/
def offs : List (List α) → Nat → Nat
  | _, 0 => 0
  | [], _ + 1 => 0
  | l :: ls, d + 1 => l.length + offs ls d

theorem offs_zero (ls : List (List α)) : offs ls 0 = 0 := by
  cases ls <;> rfl

theorem offs_succ : ∀ (ls : List (List α)) (d : Nat), d < ls.length →
    offs ls (d + 1) = offs ls d + (ls.getD d []).length
  | [], d, h => by simp at h
  | l :: ls, 0, _ => by simp [offs, offs_zero]
  | l :: ls, d + 1, h => by
      have hd : d < ls.length := by simpa using h
      show l.length + offs ls (d + 1) = l.length + offs ls d + _
      rw [offs_succ ls d hd]
      simp [List.getD_cons_succ]
      omega

theorem offs_length : ∀ ls : List (List α), offs ls ls.length = ls.flatten.length
  | [] => rfl
  | l :: ls => by
      show l.length + offs ls ls.length = _
      rw [offs_length ls]
      simp

theorem sliceOf_flatten : ∀ (ls : List (List α)) (d : Nat), d < ls.length →
    sliceOf ls.flatten (offs ls d) (offs ls (d + 1)) = ls.getD d []
  | [], d, h => by simp at h
  | l :: ls, 0, _ => by
      simp only [sliceOf, offs_zero, offs, List.flatten_cons, Nat.sub_zero, List.drop_zero]
      rw [Nat.add_zero, List.getD_cons_zero, List.take_left]
  | l :: ls, d + 1, h => by
      have hd : d < ls.length := by simpa using h
      show sliceOf (l ++ ls.flatten) (l.length + offs ls d) (l.length + offs ls (d + 1)) = _
      unfold sliceOf
      rw [List.drop_append]
      have harith : l.length + offs ls (d + 1) - (l.length + offs ls d)
          = offs ls (d + 1) - offs ls d := by omega
      rw [harith, List.getD_cons_succ]
      exact sliceOf_flatten ls d hd

theorem offs_eq_of_parts (P : Nat → Nat) (ls : List (List α))
    (hlen : ∀ i, i < ls.length → (ls.getD i []).length = P (i + 1) - P i)
    (hmono : ∀ i, i < ls.length → P i ≤ P (i + 1)) (h0 : P 0 = 0) :
    ∀ d, d ≤ ls.length → offs ls d = P d := by
  intro d
  induction d with
  | zero => intro _; rw [offs_zero, h0]
  | succ d ih =>
      intro h
      rw [offs_succ ls d (by omega), ih (by omega), hlen d (by omega)]
      have := hmono d (by omega)
      omega

theorem sliceOf_length (l : List α) (a b : Nat) (ha : a ≤ b) (hb : b ≤ l.length) :
    (sliceOf l a b).length = b - a := by
  simp only [sliceOf, List.length_take, List.length_drop]
  omega

theorem sliceOf_getD (l : List α) (a b j : Nat) (dflt : α) (hj : j < b - a)
    (hb : b ≤ l.length) : (sliceOf l a b).getD j dflt = l.getD (a + j) dflt := by
  have h1 : j < (sliceOf l a b).length := by rw [sliceOf_length l a b (by omega) hb]; omega
  have h2 : a + j < l.length := by omega
  rw [List.getD_eq_getElem _ _ h1, List.getD_eq_getElem _ _ h2]
  simp only [sliceOf]
  rw [List.getElem_take, List.getElem_drop]

theorem sliceOf_sublist (l : List α) (a b : Nat) : (sliceOf l a b).Sublist l :=
  ((l.drop a).take_sublist _).trans (l.drop_sublist a)

theorem sliceOf_nil (a b : Nat) : sliceOf ([] : List α) a b = [] := by
  simp [sliceOf]

end ListHelpers

section PartitionLemmas

theorem make_index_length (counts : List Nat) :
    (make_index counts).length = counts.length + 1 := by
  simp [make_index]

theorem make_index_getD (counts : List Nat) (d : Nat) (h : d ≤ counts.length) :
    (make_index counts).getD d 0 = (counts.take d).sum := by
  have hd : d < ((List.range (counts.length + 1)).map (fun e => (counts.take e).sum)).length := by
    simp
    omega
  unfold make_index
  rw [List.getD_eq_getElem _ _ hd, List.getElem_map, List.getElem_range]

theorem take_sum_succ (counts : List Nat) (d : Nat) (h : d < counts.length) :
    (counts.take (d + 1)).sum = (counts.take d).sum + counts.getD d 0 := by
  rw [List.take_succ, List.sum_append, List.getElem?_eq_getElem h,
    List.getD_eq_getElem _ _ h]
  simp

theorem take_sum_mono (counts : List Nat) {d e : Nat} (hde : d ≤ e) :
    (counts.take d).sum ≤ (counts.take e).sum := by
  have h1 : d + (e - d) = e := by omega
  calc (counts.take d).sum
      ≤ (counts.take d).sum + ((counts.drop d).take (e - d)).sum := by omega
    _ = (counts.take (d + (e - d))).sum := by rw [List.take_add, List.sum_append]
    _ = (counts.take e).sum := by rw [h1]

theorem foldl_bump_length (gd : Nat → Nat) :
    ∀ (cs : List connection) (acc : List Nat),
    (cs.foldl (fun a c => a.set (gd c.source.gid) (a.getD (gd c.source.gid) 0 + 1)) acc).length
      = acc.length
  | [], _ => rfl
  | c :: cs, acc => by
      simp only [List.foldl_cons]
      rw [foldl_bump_length gd cs _, List.length_set]

theorem foldl_bump_getD (gd : Nat → Nat) (d : Nat) :
    ∀ (cs : List connection) (acc : List Nat), d < acc.length →
    (cs.foldl (fun a c => a.set (gd c.source.gid) (a.getD (gd c.source.gid) 0 + 1)) acc).getD d 0
      = acc.getD d 0 + cs.countP (fun c => gd c.source.gid == d)
  | [], acc, _ => by simp
  | c :: cs, acc, hd => by
      simp only [List.foldl_cons, List.countP_cons]
      rw [foldl_bump_getD gd d cs _ (by rw [List.length_set]; exact hd)]
      by_cases h : gd c.source.gid = d
      · rw [h, getD_set_self acc _ 0 (h ▸ hd)]
        simp [h]
        omega
      · rw [getD_set_ne acc _ 0 h]
        simp [h]

theorem sum_set_bump : ∀ (l : List Nat) (i : Nat), i < l.length →
    (l.set i (l.getD i 0 + 1)).sum = l.sum + 1
  | [], i, h => by simp at h
  | x :: t, 0, _ => by
      simp [List.sum_cons]
      omega
  | x :: t, i + 1, h => by
      have hi : i < t.length := by simpa using h
      simp only [List.set_cons_succ, List.getD_cons_succ, List.sum_cons]
      rw [sum_set_bump t i hi]
      omega

theorem foldl_bump_sum (gd : Nat → Nat) :
    ∀ (cs : List connection) (acc : List Nat), (∀ c ∈ cs, gd c.source.gid < acc.length) →
    (cs.foldl (fun a c => a.set (gd c.source.gid) (a.getD (gd c.source.gid) 0 + 1)) acc).sum
      = acc.sum + cs.length
  | [], acc, _ => by simp
  | c :: cs, acc, hcs => by
      simp only [List.foldl_cons]
      rw [foldl_bump_sum gd cs _
        (fun c' hc' => by rw [List.length_set]; exact hcs c' (List.mem_cons_of_mem _ hc'))]
      rw [sum_set_bump acc _ (hcs c (List.mem_cons_self c cs))]
      simp only [List.length_cons]
      omega

theorem src_counts_length (gd : Nat → Nat) (nd : Nat) (cs : List connection) :
    (src_counts gd nd cs).length = nd := by
  unfold src_counts
  rw [foldl_bump_length]
  simp

theorem src_counts_getD (gd : Nat → Nat) (nd : Nat) (cs : List connection) (d : Nat)
    (hd : d < nd) :
    (src_counts gd nd cs).getD d 0 = cs.countP (fun c => gd c.source.gid == d) := by
  unfold src_counts
  rw [foldl_bump_getD gd d cs _ (by simp [hd])]
  simp

theorem src_counts_sum (gd : Nat → Nat) (nd : Nat) (cs : List connection)
    (hcs : ∀ c ∈ cs, gd c.source.gid < nd) :
    (src_counts gd nd cs).sum = cs.length := by
  unfold src_counts
  rw [foldl_bump_sum gd cs _ (by simpa using hcs)]
  simp

theorem conn_part_length (gd : Nat → Nat) (nd : Nat) (cs : List connection) :
    (conn_part gd nd cs).length = nd + 1 := by
  unfold conn_part
  rw [make_index_length, src_counts_length]

theorem conn_part_getD (gd : Nat → Nat) (nd : Nat) (cs : List connection) (d : Nat)
    (hd : d ≤ nd) :
    (conn_part gd nd cs).getD d 0 = ((src_counts gd nd cs).take d).sum := by
  unfold conn_part
  exact make_index_getD _ d (by rw [src_counts_length]; exact hd)

theorem conn_part_zero (gd : Nat → Nat) (nd : Nat) (cs : List connection) :
    (conn_part gd nd cs).getD 0 0 = 0 := by
  rw [conn_part_getD gd nd cs 0 (by omega)]
  simp

theorem conn_part_mono (gd : Nat → Nat) (nd : Nat) (cs : List connection) {d e : Nat}
    (hde : d ≤ e) (he : e ≤ nd) :
    (conn_part gd nd cs).getD d 0 ≤ (conn_part gd nd cs).getD e 0 := by
  rw [conn_part_getD _ _ _ d (le_trans hde he), conn_part_getD _ _ _ e he]
  exact take_sum_mono _ hde

theorem conn_part_succ (gd : Nat → Nat) (nd : Nat) (cs : List connection) (d : Nat)
    (hd : d < nd) :
    (conn_part gd nd cs).getD (d + 1) 0
      = (conn_part gd nd cs).getD d 0 + cs.countP (fun c => gd c.source.gid == d) := by
  rw [conn_part_getD _ _ _ (d + 1) (by omega), conn_part_getD _ _ _ d (by omega)]
  rw [take_sum_succ _ d (by rw [src_counts_length]; exact hd)]
  rw [src_counts_getD gd nd cs d hd]

theorem conn_part_top (gd : Nat → Nat) (nd : Nat) (cs : List connection)
    (hcs : ∀ c ∈ cs, gd c.source.gid < nd) :
    (conn_part gd nd cs).getD nd 0 = cs.length := by
  rw [conn_part_getD _ _ _ nd le_rfl,
    List.take_of_length_le (by rw [src_counts_length])]
  exact src_counts_sum gd nd cs hcs

end PartitionLemmas

section ScatterLemmas

theorem place_length (gd : Nat → Nat) :
    ∀ (cs arr : List connection) (os : List Nat),
    ((place gd cs arr os).1).length = arr.length
  | [], _, _ => rfl
  | c :: cs, arr, os => by
      simp only [place]
      rw [place_length gd cs _ _, List.length_set]

theorem place_untouched (gd : Nat → Nat) (nd : Nat) :
    ∀ (cs arr : List connection) (os : List Nat) (i : Nat),
    nd ≤ os.length →
    (∀ c ∈ cs, gd c.source.gid < nd) →
    (∀ d, d < nd → ¬ (os.getD d 0 ≤ i ∧
        i < os.getD d 0 + cs.countP (fun c => gd c.source.gid == d))) →
    ((place gd cs arr os).1).getD i default = arr.getD i default
  | [], arr, os, i, _, _, _ => rfl
  | c :: cs, arr, os, i, hos, hcs, hwin => by
      simp only [place]
      set d0 := gd c.source.gid with hd0eq
      have hd0 : d0 < nd := hcs c (List.mem_cons_self c cs)
      have hcnt0 : (c :: cs).countP (fun c' => gd c'.source.gid == d0)
          = cs.countP (fun c' => gd c'.source.gid == d0) + 1 := by
        rw [List.countP_cons]
        simp [← hd0eq]
      have hw0 := hwin d0 hd0
      rw [hcnt0] at hw0
      have hne : i ≠ os.getD d0 0 := by omega
      rw [place_untouched gd nd cs _ _ i (by rw [List.length_set]; exact hos)
        (fun c' hc' => hcs c' (List.mem_cons_of_mem _ hc')) ?_]
      · exact getD_set_ne arr _ default (Ne.symm hne)
      · intro d hd
        by_cases hdd : d = d0
        · subst hdd
          rw [getD_set_self os _ 0 (lt_of_lt_of_le hd0 hos)]
          omega
        · rw [getD_set_ne os _ 0 (Ne.symm hdd)]
          have hpcne : (gd c.source.gid == d) = false := by
            rw [← hd0eq]
            simp
            exact fun h => hdd h.symm
          have hcnte : (c :: cs).countP (fun c' => gd c'.source.gid == d)
              = cs.countP (fun c' => gd c'.source.gid == d) := by
            rw [List.countP_cons, hpcne]
            simp
          have hw := hwin d hd
          rw [hcnte] at hw
          exact hw

theorem place_written (gd : Nat → Nat) (nd : Nat) (P : Nat → Nat)
    (hmono : ∀ d e, d ≤ e → e ≤ nd → P d ≤ P e) :
    ∀ (cs arr : List connection) (os : List Nat),
    nd ≤ os.length →
    arr.length = P nd →
    (∀ c ∈ cs, gd c.source.gid < nd) →
    (∀ d, d < nd → P d ≤ os.getD d 0 ∧
        os.getD d 0 + cs.countP (fun c => gd c.source.gid == d) ≤ P (d + 1)) →
    ∀ d, d < nd → ∀ j, j < cs.countP (fun c => gd c.source.gid == d) →
    ((place gd cs arr os).1).getD (os.getD d 0 + j) default
      = (cs.filter (fun c => gd c.source.gid == d)).getD j default
  | [], arr, os, _, _, _, _, d, hd, j, hj => by simp at hj
  | c :: cs, arr, os, hos, harr, hcs, hbound, d, hd, j, hj => by
      simp only [place]
      set d0 := gd c.source.gid with hd0eq
      have hd0 : d0 < nd := hcs c (List.mem_cons_self c cs)
      have hosd0 : d0 < os.length := lt_of_lt_of_le hd0 hos
      have hpc0 : (gd c.source.gid == d0) = true := by
        rw [← hd0eq]
        simp
      have hcnt0 : (c :: cs).countP (fun c' => gd c'.source.gid == d0)
          = cs.countP (fun c' => gd c'.source.gid == d0) + 1 := by
        rw [List.countP_cons, hpc0]
        simp
      have hset_d0 : (os.set d0 (os.getD d0 0 + 1)).getD d0 0 = os.getD d0 0 + 1 :=
        getD_set_self os _ 0 hosd0
      have hcs' : ∀ c' ∈ cs, gd c'.source.gid < nd :=
        fun c' hc' => hcs c' (List.mem_cons_of_mem _ hc')
      have hbound' : ∀ e, e < nd →
          P e ≤ (os.set d0 (os.getD d0 0 + 1)).getD e 0 ∧
          (os.set d0 (os.getD d0 0 + 1)).getD e 0 +
            cs.countP (fun c' => gd c'.source.gid == e) ≤ P (e + 1) := by
        intro e he
        by_cases hed : e = d0
        · subst hed
          rw [hset_d0]
          have hb := hbound d0 he
          rw [hcnt0] at hb
          omega
        · rw [getD_set_ne os _ 0 (Ne.symm hed)]
          have hpcne : (gd c.source.gid == e) = false := by
            rw [← hd0eq]
            simp
            exact fun h => hed h.symm
          have hcnte : (c :: cs).countP (fun c' => gd c'.source.gid == e)
              = cs.countP (fun c' => gd c'.source.gid == e) := by
            rw [List.countP_cons, hpcne]
            simp
          have hb := hbound e he
          rw [hcnte] at hb
          exact hb
      by_cases hdd : d = d0
      · subst hdd
        have hfilter : (c :: cs).filter (fun c' => gd c'.source.gid == d0)
            = c :: cs.filter (fun c' => gd c'.source.gid == d0) :=
          List.filter_cons_of_pos hpc0
        cases j with
        | zero =>
            simp only [Nat.add_zero]
            rw [hfilter, List.getD_cons_zero]
            have hbd := hbound d0 hd
            rw [hcnt0] at hbd
            have hm1 : P (d0 + 1) ≤ P nd := hmono (d0 + 1) nd (by omega) le_rfl
            have harrd0 : os.getD d0 0 < arr.length := by omega
            rw [place_untouched gd nd cs _ _ (os.getD d0 0)
              (by rw [List.length_set]; exact hos) hcs' ?_]
            · exact getD_set_self arr c default harrd0
            · intro e he
              by_cases hed : e = d0
              · subst hed
                rw [hset_d0]
                omega
              · have hbe := hbound' e he
                rw [getD_set_ne os _ 0 (Ne.symm hed)] at hbe
                rw [getD_set_ne os _ 0 (Ne.symm hed)]
                rcases Nat.lt_or_ge e d0 with hlt | hge
                · have hm2 : P (e + 1) ≤ P d0 := hmono (e + 1) d0 (by omega) (by omega)
                  omega
                · have hdlt : d0 < e := by omega
                  have hm3 : P (d0 + 1) ≤ P e := hmono (d0 + 1) e (by omega) (by omega)
                  omega
        | succ j' =>
            have hj2 := hj
            rw [hcnt0] at hj2
            have hj' : j' < cs.countP (fun c' => gd c'.source.gid == d0) := by omega
            have hidx : os.getD d0 0 + (j' + 1)
                = (os.set d0 (os.getD d0 0 + 1)).getD d0 0 + j' := by
              rw [hset_d0]
              omega
            rw [hidx, place_written gd nd P hmono cs _ _
              (by rw [List.length_set]; exact hos)
              (by rw [List.length_set]; exact harr) hcs' hbound' d0 hd j' hj']
            rw [hfilter, List.getD_cons_succ]
      · have hpcne : (gd c.source.gid == d) = false := by
          rw [← hd0eq]
          simp
          exact fun h => hdd h.symm
        have hcnte : (c :: cs).countP (fun c' => gd c'.source.gid == d)
            = cs.countP (fun c' => gd c'.source.gid == d) := by
          rw [List.countP_cons, hpcne]
          simp
        have hfilter : (c :: cs).filter (fun c' => gd c'.source.gid == d)
            = cs.filter (fun c' => gd c'.source.gid == d) := by
          rw [List.filter_cons_of_neg]
          rw [hpcne]
          simp
        have hosd : (os.set d0 (os.getD d0 0 + 1)).getD d 0
            = os.getD d 0 := getD_set_ne os _ 0 (fun h2 => hdd h2.symm)
        rw [← hosd, place_written gd nd P hmono cs _ _
          (by rw [List.length_set]; exact hos)
          (by rw [List.length_set]; exact harr) hcs' hbound' d hd j
          (by rw [← hcnte]; exact hj)]
        rw [hfilter]

end ScatterLemmas

section CtorLemmas

theorem getD_map_range {α : Type _} (f : Nat → α) (n i : Nat) (hi : i < n) (dflt : α) :
    ((List.range n).map f).getD i dflt = f i := by
  have h : i < ((List.range n).map f).length := by simp [hi]
  rw [List.getD_eq_getElem _ _ h, List.getElem_map, List.getElem_range]

theorem scattered_length (gd : Nat → Nat) (nd : Nat) (cs : List connection) :
    (scattered gd nd cs).length = cs.length := by
  unfold scattered
  rw [place_length]
  simp

theorem scattered_slice (gd : Nat → Nat) (nd : Nat) (cs : List connection)
    (hcs : ∀ c ∈ cs, gd c.source.gid < nd) (d : Nat) (hd : d < nd) :
    conn_slice (scattered gd nd cs) (conn_part gd nd cs) d
      = cs.filter (fun c => gd c.source.gid == d) := by
  have hmono : ∀ a b, a ≤ b → b ≤ nd →
      (conn_part gd nd cs).getD a 0 ≤ (conn_part gd nd cs).getD b 0 :=
    fun a b hab hb => conn_part_mono gd nd cs hab hb
  have htop : (conn_part gd nd cs).getD nd 0 = cs.length := conn_part_top gd nd cs hcs
  have hsucc := conn_part_succ gd nd cs d hd
  have hlenS : (scattered gd nd cs).length = cs.length := scattered_length gd nd cs
  have hb1 : (conn_part gd nd cs).getD (d + 1) 0 ≤ cs.length := by
    have := hmono (d + 1) nd (by omega) le_rfl
    omega
  have hd1 : (conn_part gd nd cs).getD d 0 ≤ (conn_part gd nd cs).getD (d + 1) 0 :=
    hmono d (d + 1) (by omega) (by omega)
  have hslice_len : (conn_slice (scattered gd nd cs) (conn_part gd nd cs) d).length
      = (conn_part gd nd cs).getD (d + 1) 0 - (conn_part gd nd cs).getD d 0 := by
    unfold conn_slice
    exact sliceOf_length _ _ _ hd1 (by rw [hlenS]; exact hb1)
  have hfilter_len : (cs.filter (fun c => gd c.source.gid == d)).length
      = cs.countP (fun c => gd c.source.gid == d) :=
    (List.countP_eq_length_filter _ _).symm
  refine list_eq_of_getD default ?_ ?_
  · rw [hslice_len, hfilter_len]
    omega
  · intro j hj
    rw [hslice_len] at hj
    unfold conn_slice
    rw [sliceOf_getD _ _ _ j default hj (by rw [hlenS]; exact hb1)]
    unfold scattered
    refine place_written gd nd (fun e => (conn_part gd nd cs).getD e 0)
      (fun a b hab hb => hmono a b hab hb) cs _ _
      (by rw [conn_part_length]; omega)
      (by rw [List.length_replicate]; exact htop.symm)
      hcs ?_ d hd j (by omega)
    intro e he
    exact ⟨le_rfl, le_of_eq (conn_part_succ gd nd cs e he).symm⟩

theorem ctor_connections_eq (rec : recipe) (dd : domain_decomposition) (nd : Nat) :
    (communicator.ctor rec dd nd).connections_
      = ((List.range nd).map (fun d =>
          sortConn (conn_slice (scattered dd.gid_domain nd (flat_conns rec dd))
            (conn_part dd.gid_domain nd (flat_conns rec dd)) d))).flatten := by
  show ((List.range nd).flatMap _) = _
  rw [List.flatMap_def]
  rfl

theorem ctor_bucket_len (rec : recipe) (dd : domain_decomposition) (nd : Nat)
    (hgd : ∀ c ∈ flat_conns rec dd, dd.gid_domain c.source.gid < nd)
    (i : Nat) (hi : i < nd) :
    (sortConn (conn_slice (scattered dd.gid_domain nd (flat_conns rec dd))
        (conn_part dd.gid_domain nd (flat_conns rec dd)) i)).length
      = (conn_part dd.gid_domain nd (flat_conns rec dd)).getD (i + 1) 0
        - (conn_part dd.gid_domain nd (flat_conns rec dd)).getD i 0 := by
  unfold sortConn
  rw [List.length_insertionSort, scattered_slice dd.gid_domain nd _ hgd i hi,
    ← List.countP_eq_length_filter]
  have := conn_part_succ dd.gid_domain nd (flat_conns rec dd) i hi
  omega

theorem ctor_offs (rec : recipe) (dd : domain_decomposition) (nd : Nat)
    (hgd : ∀ c ∈ flat_conns rec dd, dd.gid_domain c.source.gid < nd) :
    ∀ d, d ≤ nd →
    offs ((List.range nd).map (fun e =>
        sortConn (conn_slice (scattered dd.gid_domain nd (flat_conns rec dd))
          (conn_part dd.gid_domain nd (flat_conns rec dd)) e))) d
      = (conn_part dd.gid_domain nd (flat_conns rec dd)).getD d 0 := by
  intro d hdnd
  refine offs_eq_of_parts (fun e => (conn_part dd.gid_domain nd (flat_conns rec dd)).getD e 0)
    _ ?_ ?_ ?_ d (by simpa using hdnd)
  · intro i hi
    have hi' : i < nd := by simpa using hi
    rw [getD_map_range _ nd i hi']
    exact ctor_bucket_len rec dd nd hgd i hi'
  · intro i hi
    have hi' : i < nd := by simpa using hi
    exact conn_part_mono dd.gid_domain nd _ (by omega) (by omega)
  · exact conn_part_zero dd.gid_domain nd _

theorem ctor_slice (rec : recipe) (dd : domain_decomposition) (nd : Nat)
    (hgd : ∀ c ∈ flat_conns rec dd, dd.gid_domain c.source.gid < nd)
    (d : Nat) (hd : d < nd) :
    conn_slice (communicator.ctor rec dd nd).connections_
        (communicator.ctor rec dd nd).connection_part_ d
      = sortConn ((flat_conns rec dd).filter
          (fun c => dd.gid_domain c.source.gid == d)) := by
  have hpart : (communicator.ctor rec dd nd).connection_part_
      = conn_part dd.gid_domain nd (flat_conns rec dd) := rfl
  unfold conn_slice
  rw [hpart, ctor_connections_eq,
    ← ctor_offs rec dd nd hgd d (by omega), ← ctor_offs rec dd nd hgd (d + 1) (by omega)]
  rw [sliceOf_flatten _ d (by simpa using hd)]
  rw [getD_map_range _ nd d hd]
  rw [scattered_slice dd.gid_domain nd _ hgd d hd]

theorem ctor_connections_length (rec : recipe) (dd : domain_decomposition) (nd : Nat)
    (hgd : ∀ c ∈ flat_conns rec dd, dd.gid_domain c.source.gid < nd) :
    (communicator.ctor rec dd nd).connections_.length = (flat_conns rec dd).length := by
  rw [ctor_connections_eq]
  rw [← offs_length]
  have hlen : ((List.range nd).map (fun d =>
      sortConn (conn_slice (scattered dd.gid_domain nd (flat_conns rec dd))
        (conn_part dd.gid_domain nd (flat_conns rec dd)) d))).length = nd := by simp
  rw [hlen, ctor_offs rec dd nd hgd nd le_rfl]
  exact conn_part_top dd.gid_domain nd _ hgd

end CtorLemmas

section MatchingSound

theorem flat_conns_index_lt (rec : recipe) (dd : domain_decomposition) :
    ∀ c ∈ flat_conns rec dd, c.index_on_domain < (flat_gids dd).length := by
  intro c hc
  unfold flat_conns at hc
  rw [List.mem_flatMap] at hc
  obtain ⟨gi, hgi, hcm⟩ := hc
  rw [List.mem_map] at hcm
  obtain ⟨rc, _, hceq⟩ := hcm
  unfold gid_infos at hgi
  rw [List.mem_map] at hgi
  obtain ⟨⟨i, g⟩, hp, hgieq⟩ := hgi
  have hi : i < (flat_gids dd).length := (List.mem_enum hp).1
  have h1 : c.index_on_domain = gi.index_on_domain := by rw [← hceq]
  have h2 : gi.index_on_domain = i := by rw [← hgieq]
  rw [h1, h2]
  exact hi

theorem cons_outer_sound : ∀ (cons : List connection) (spks : List spike) (e : pse_event),
    e ∈ cons_outer cons spks → ∃ c ∈ cons, ∃ s ∈ spks, e = c.make_event s
  | [], _, e, he => by simp [cons_outer] at he
  | _ :: _, [], e, he => by simp [cons_outer] at he
  | c :: cs, s :: ss, e, he => by
      simp only [cons_outer, List.mem_append, List.mem_map] at he
      rcases he with ⟨s0, hs0, hfe⟩ | he
      · have hs0' : s0 ∈ s :: ss :=
          (((List.takeWhile_sublist _).trans (List.dropWhile_sublist _)).subset) hs0
        exact ⟨c, List.mem_cons_self c cs, s0, hs0', hfe.symm⟩
      · obtain ⟨c', hc', s', hs', heq⟩ := cons_outer_sound cs _ e he
        have hs'' : s' ∈ s :: ss := ((List.dropWhile_sublist _).subset) hs'
        exact ⟨c', List.mem_cons_of_mem c hc', s', hs'', heq⟩

theorem spikes_outer_sound : ∀ (cons : List connection) (spks : List spike) (e : pse_event),
    e ∈ spikes_outer cons spks → ∃ c ∈ cons, ∃ s ∈ spks, e = c.make_event s
  | [], _, e, he => by simp [spikes_outer] at he
  | _ :: _, [], e, he => by simp [spikes_outer] at he
  | c :: cs, s :: ss, e, he => by
      simp only [spikes_outer, List.mem_append, List.mem_map] at he
      rcases he with ⟨c0, hc0, hfe⟩ | he
      · have hc0' : c0 ∈ c :: cs :=
          (((List.takeWhile_sublist _).trans (List.dropWhile_sublist _)).subset) hc0
        exact ⟨c0, hc0', s, List.mem_cons_self s ss, hfe.symm⟩
      · obtain ⟨c', hc', s', hs', heq⟩ := spikes_outer_sound _ ss e he
        have hc'' : c' ∈ c :: cs := ((List.dropWhile_sublist _).subset) hc'
        exact ⟨c', hc'', s', List.mem_cons_of_mem s hs', heq⟩
  termination_by cons spks _ _ => spks.length

theorem events_for_domain_sound (conns : List connection) (cpart : List Nat)
    (g : gathered_vector) (dom : Nat) (e : pse_event)
    (he : e ∈ events_for_domain conns cpart g dom) :
    ∃ c ∈ conn_slice conns cpart dom, ∃ s ∈ spike_slice g dom, e = c.make_event s := by
  simp only [events_for_domain] at he
  split at he
  · exact cons_outer_sound _ _ e he
  · exact spikes_outer_sound _ _ e he

/-- All events emitted by one call of `make_event_queues`, in emission order
(the concatenation over the domain loop of communicator.hpp line 191). -/
def all_events (c : communicator) (g : gathered_vector) : List pse_event :=
  (List.range c.num_domains_).flatMap
    (fun dom => events_for_domain c.connections_ c.connection_part_ g dom)

theorem all_events_sound (c : communicator) (g : gathered_vector) (e : pse_event)
    (he : e ∈ all_events c g) :
    ∃ cn ∈ c.connections_, ∃ s ∈ g.values, e = cn.make_event s := by
  unfold all_events at he
  rw [List.mem_flatMap] at he
  obtain ⟨dom, _, hed⟩ := he
  obtain ⟨cn, hcn, s, hs, heq⟩ := events_for_domain_sound _ _ _ _ e hed
  exact ⟨cn, (sliceOf_sublist _ _ _).subset hcn, s, (sliceOf_sublist _ _ _).subset hs, heq⟩

end MatchingSound

section MatchingCanonical

variable {α : Type _}

/-- On a key-sorted list whose keys are all at least `k`, the upper-bound probe
of `equal_range` (`takeWhile` of "not above `k`") returns exactly the elements
with key `k`. -/
theorem takeWhile_eq_filter_of_ge (key : α → cell_member_type) (k : cell_member_type) :
    ∀ xs : List α, List.Pairwise (fun x y => cm_lt (key y) (key x) = false) xs →
    (∀ x ∈ xs, cm_lt (key x) k = false) →
    xs.takeWhile (fun x => ! cm_lt k (key x)) = xs.filter (fun x => key x == k)
  | [], _, _ => rfl
  | x :: xs, hp, hge => by
      rcases List.pairwise_cons.mp hp with ⟨hx, hp2⟩
      by_cases hk : cm_lt k (key x) = true
      · rw [List.takeWhile_cons_of_neg (by simp [hk])]
        symm
        rw [List.filter_eq_nil_iff]
        intro y hy
        rcases List.mem_cons.mp hy with rfl | hy2
        · simp only [beq_iff_eq]
          intro hiff
          rw [hiff] at hk
          simp [cm_lt_irrefl] at hk
        · have hle : cm_lt (key y) (key x) = false := hx y hy2
          have hky : cm_lt k (key y) = true := cm_lt_of_lt_of_not_lt hk hle
          simp only [beq_iff_eq]
          intro hiff
          rw [hiff] at hky
          simp [cm_lt_irrefl] at hky
      · have hk2 : cm_lt k (key x) = false := by
          cases h : cm_lt k (key x)
          · rfl
          · exact absurd h hk
        have hxk : key x = k := cm_eq_of_not_lt (hge x (List.mem_cons_self x xs)) hk2
        rw [List.takeWhile_cons_of_pos (by simp [hk2])]
        rw [List.filter_cons_of_pos (by simp [hxk])]
        rw [takeWhile_eq_filter_of_ge key k xs hp2
          (fun y hy => hge y (List.mem_cons_of_mem x hy))]

/-- On a key-sorted list, `equal_range` for key `k` (lower-bound `dropWhile`
then upper-bound `takeWhile`) returns exactly the elements with key `k`. -/
theorem run_eq_filter (key : α → cell_member_type) (k : cell_member_type) :
    ∀ xs : List α, List.Pairwise (fun x y => cm_lt (key y) (key x) = false) xs →
    (xs.dropWhile (fun x => cm_lt (key x) k)).takeWhile (fun x => ! cm_lt k (key x))
      = xs.filter (fun x => key x == k)
  | [], _ => rfl
  | x :: xs, hp => by
      rcases List.pairwise_cons.mp hp with ⟨hx, hp2⟩
      by_cases hd : cm_lt (key x) k = true
      · rw [List.dropWhile_cons_of_pos (by simp [hd])]
        rw [run_eq_filter key k xs hp2]
        symm
        rw [List.filter_cons_of_neg ?_]
        simp only [beq_iff_eq]
        intro he
        rw [he] at hd
        simp [cm_lt_irrefl] at hd
      · have hd2 : cm_lt (key x) k = false := by
          cases h : cm_lt (key x) k
          · rfl
          · exact absurd h hd
        rw [List.dropWhile_cons_of_neg (by simp [hd2])]
        refine takeWhile_eq_filter_of_ge key k (x :: xs) hp ?_
        intro y hy
        rcases List.mem_cons.mp hy with rfl | hy2
        · exact hd2
        · have hle : cm_lt (key y) (key x) = false := hx y hy2
          cases h : cm_lt (key y) k
          · rfl
          · exact absurd (cm_lt_of_not_lt_of_lt hle h) (by simp [hd2])

/-- Elements dropped by the lower-bound probe for key `k` have keys below `k`,
so they cannot match any key `k2` at or above `k`. -/
theorem filter_dropWhile_key (key : α → cell_member_type) (k k2 : cell_member_type)
    (hkk : cm_lt k2 k = false) :
    ∀ xs : List α,
    (xs.dropWhile (fun x => cm_lt (key x) k)).filter (fun x => key x == k2)
      = xs.filter (fun x => key x == k2)
  | [] => rfl
  | x :: xs => by
      by_cases hd : cm_lt (key x) k = true
      · rw [List.dropWhile_cons_of_pos (by simp [hd])]
        rw [filter_dropWhile_key key k k2 hkk xs]
        symm
        rw [List.filter_cons_of_neg ?_]
        have hk2 : cm_lt (key x) k2 = true := cm_lt_of_lt_of_not_lt hd hkk
        simp only [beq_iff_eq]
        intro he
        rw [he] at hk2
        simp [cm_lt_irrefl] at hk2
      · have hd2 : cm_lt (key x) k = false := by
          cases h : cm_lt (key x) k
          · rfl
          · exact absurd h hd
        rw [List.dropWhile_cons_of_neg (by simp [hd2])]

/-- Canonical complete pairing, connections outer: one event per matched
`(connection, spike)` pair, for each connection in order all its equal-source
spikes in order. -/
def pairs_cons (cons : List connection) (spks : List spike) : List pse_event :=
  cons.flatMap (fun c => (spks.filter (fun s => s.source == c.source)).map c.make_event)

/-- Canonical complete pairing, spikes outer. -/
def pairs_spks (cons : List connection) (spks : List spike) : List pse_event :=
  spks.flatMap
    (fun s => (cons.filter (fun c => c.source == s.source)).map (fun c => c.make_event s))

theorem flatMap_const_nil {β : Type _} (l : List α) :
    (l.flatMap (fun _ => ([] : List β))) = [] := by
  induction l with
  | nil => rfl
  | cons x xs ih => simp [List.flatMap_cons, ih]

theorem sorted_conn_src {cons : List connection} (h : List.Sorted conn_le cons) :
    List.Pairwise (fun x y => cm_lt y.source x.source = false) cons := by
  refine h.imp ?_
  intro a b hab
  have hab2 : conn_lt b a = false := hab
  unfold conn_lt at hab2
  exact (Bool.or_eq_false_iff.mp hab2).1

theorem cons_outer_eq_pairs : ∀ (cons : List connection) (spks : List spike),
    List.Pairwise (fun x y => cm_lt y.source x.source = false) cons →
    List.Sorted sp_le spks →
    cons_outer cons spks = pairs_cons cons spks
  | [], _, _, _ => rfl
  | c :: cs, [], _, _ => by
      show ([] : List pse_event) = pairs_cons (c :: cs) []
      unfold pairs_cons
      simp [flatMap_const_nil]
  | c :: cs, s :: ss, hc, hs => by
      rcases List.pairwise_cons.mp hc with ⟨hcx, hc2⟩
      simp only [cons_outer]
      have hrun : ((s :: ss).dropWhile (fun s0 => cm_lt s0.source c.source)).takeWhile
          (fun s0 => ! cm_lt c.source s0.source)
          = (s :: ss).filter (fun s0 => s0.source == c.source) :=
        run_eq_filter (fun s0 : spike => s0.source) c.source (s :: ss) hs
      have hlow : List.Pairwise (fun x y : spike => cm_lt y.source x.source = false)
          ((s :: ss).dropWhile (fun s0 => cm_lt s0.source c.source)) :=
        List.Pairwise.sublist (List.dropWhile_sublist _) hs
      rw [hrun, cons_outer_eq_pairs cs _ hc2 hlow]
      have hcong : pairs_cons cs ((s :: ss).dropWhile (fun s0 => cm_lt s0.source c.source))
          = pairs_cons cs (s :: ss) := by
        unfold pairs_cons
        refine flatMap_congr_mem ?_
        intro c2 hc2m
        have hle : cm_lt c2.source c.source = false := hcx c2 hc2m
        rw [filter_dropWhile_key (fun s0 : spike => s0.source) c.source c2.source hle (s :: ss)]
      rw [hcong]
      show _ ++ _ = pairs_cons (c :: cs) (s :: ss)
      unfold pairs_cons
      rw [List.flatMap_cons]

theorem spikes_outer_eq_pairs : ∀ (cons : List connection) (spks : List spike),
    List.Pairwise (fun x y => cm_lt y.source x.source = false) cons →
    List.Sorted sp_le spks →
    spikes_outer cons spks = pairs_spks cons spks
  | cons, [], _, _ => by
      cases cons <;> simp [spikes_outer, pairs_spks]
  | [], s :: ss, _, _ => by
      simp [spikes_outer, pairs_spks, flatMap_const_nil]
  | c :: cs, s :: ss, hc, hs => by
      rcases List.pairwise_cons.mp hs with ⟨hsx, hs2⟩
      simp only [spikes_outer]
      have hrun : ((c :: cs).dropWhile (fun c0 => cm_lt c0.source s.source)).takeWhile
          (fun c0 => ! cm_lt s.source c0.source)
          = (c :: cs).filter (fun c0 => c0.source == s.source) :=
        run_eq_filter (fun c0 : connection => c0.source) s.source (c :: cs) hc
      have hlow : List.Pairwise (fun x y : connection => cm_lt y.source x.source = false)
          ((c :: cs).dropWhile (fun c0 => cm_lt c0.source s.source)) :=
        List.Pairwise.sublist (List.dropWhile_sublist _) hc
      rw [hrun, spikes_outer_eq_pairs _ ss hlow hs2]
      have hcong : pairs_spks ((c :: cs).dropWhile (fun c0 => cm_lt c0.source s.source)) ss
          = pairs_spks (c :: cs) ss := by
        unfold pairs_spks
        refine flatMap_congr_mem ?_
        intro s2 hs2m
        have hle : cm_lt s2.source s.source = false := hsx s2 hs2m
        rw [filter_dropWhile_key (fun c0 : connection => c0.source) s.source s2.source hle (c :: cs)]
      rw [hcong]
      show _ ++ _ = pairs_spks (c :: cs) (s :: ss)
      unfold pairs_spks
      rw [List.flatMap_cons]
  termination_by cons spks _ _ => spks.length

theorem beq_cm_symm (a b : cell_member_type) : (a == b) = (b == a) := by
  rw [Bool.eq_iff_iff]
  simp only [beq_iff_eq]
  exact eq_comm

/-- Strategy independence at the level of one domain: the two canonical
pairings are equal as multisets. -/
theorem pairs_perm (cons : List connection) (spks : List spike) :
    (pairs_cons cons spks).Perm (pairs_spks cons spks) := by
  have h1 : pairs_cons cons spks
      = cons.flatMap (fun c => spks.flatMap (fun s =>
          if s.source == c.source then [c.make_event s] else [])) := by
    unfold pairs_cons
    exact flatMap_congr_mem (fun c _ => filter_map_eq_flatMap _ _ _)
  have h2 : pairs_spks cons spks
      = spks.flatMap (fun s => cons.flatMap (fun c =>
          if c.source == s.source then [c.make_event s] else [])) := by
    unfold pairs_spks
    exact flatMap_congr_mem (fun s _ => filter_map_eq_flatMap _ _ _)
  rw [h1, h2, ← Multiset.coe_eq_coe]
  simp only [← Multiset.coe_bind]
  rw [Multiset.bind_bind]
  refine Multiset.bind_congr ?_
  intro s _
  refine Multiset.bind_congr ?_
  intro c _
  rw [beq_cm_symm s.source c.source]

end MatchingCanonical

section QueueLemmas

theorem push_events_nil (qs : List (List pse_event)) : push_events qs [] = qs := rfl

theorem push_events_length : ∀ (evs : List pse_event) (qs : List (List pse_event)),
    (push_events qs evs).length = qs.length
  | [], _ => rfl
  | e :: evs, qs => by
      show (push_events (qs.set e.target (qs.getD e.target [] ++ [e])) evs).length = _
      rw [push_events_length evs _, List.length_set]

theorem push_events_getD : ∀ (evs : List pse_event) (qs : List (List pse_event)) (i : Nat),
    (∀ e ∈ evs, e.target < qs.length) →
    (push_events qs evs).getD i [] = qs.getD i [] ++ evs.filter (fun e => e.target == i)
  | [], qs, i, _ => by simp [push_events]
  | e :: evs, qs, i, hb => by
      have hbt : e.target < qs.length := hb e (List.mem_cons_self e evs)
      show (push_events (qs.set e.target (qs.getD e.target [] ++ [e])) evs).getD i [] = _
      rw [push_events_getD evs _ i (fun e2 he2 => by
        rw [List.length_set]
        exact hb e2 (List.mem_cons_of_mem e he2))]
      rw [List.filter_cons]
      by_cases hti : e.target = i
      · subst hti
        rw [getD_set_self qs _ [] hbt]
        simp
      · rw [getD_set_ne qs _ [] hti]
        have hbeq : (e.target == i) = false := by
          simp [hti]
        rw [hbeq]
        simp

theorem push_events_frame : ∀ (evs : List pse_event) (qs : List (List pse_event)) (i : Nat),
    ∃ t, (push_events qs evs).getD i [] = qs.getD i [] ++ t
  | [], qs, i => ⟨[], by simp [push_events]⟩
  | e :: evs, qs, i => by
      obtain ⟨t, ht⟩ := push_events_frame evs (qs.set e.target (qs.getD e.target [] ++ [e])) i
      by_cases hti : e.target = i
      · subst hti
        by_cases hlen : e.target < qs.length
        · refine ⟨[e] ++ t, ?_⟩
          show (push_events _ evs).getD e.target [] = _
          rw [ht, getD_set_self qs _ [] hlen, List.append_assoc]
        · have hset : qs.set e.target (qs.getD e.target [] ++ [e]) = qs :=
            List.set_eq_of_length_le (by omega)
          refine ⟨t, ?_⟩
          show (push_events _ evs).getD e.target [] = _
          rw [ht, hset]
      · refine ⟨t, ?_⟩
        show (push_events _ evs).getD i [] = _
        rw [ht, getD_set_ne qs _ [] hti]

theorem push_events_append (qs : List (List pse_event)) (a b : List pse_event) :
    push_events qs (a ++ b) = push_events (push_events qs a) b := by
  unfold push_events
  rw [List.foldl_append]

theorem make_event_queues_eq_push (c : communicator) (g : gathered_vector)
    (queues : List (List pse_event)) :
    c.make_event_queues g queues = push_events queues (all_events c g) := by
  unfold communicator.make_event_queues all_events
  generalize List.range c.num_domains_ = ds
  induction ds generalizing queues with
  | nil => rfl
  | cons d ds ih =>
      rw [List.foldl_cons, List.flatMap_cons, push_events_append]
      exact ih _

theorem spike_slice_empty (g : gathered_vector) (hg : g.values = []) (dom : Nat) :
    spike_slice g dom = [] := by
  unfold spike_slice
  rw [hg]
  exact sliceOf_nil _ _

theorem cons_outer_nil_right (cons : List connection) : cons_outer cons [] = [] := by
  cases cons <;> rfl

theorem spikes_outer_nil_right (cons : List connection) : spikes_outer cons [] = [] := by
  cases cons <;> simp [spikes_outer]

theorem events_for_domain_empty (conns : List connection) (cpart : List Nat)
    (g : gathered_vector) (dom : Nat) (hg : g.values = []) :
    events_for_domain conns cpart g dom = [] := by
  simp only [events_for_domain, spike_slice_empty g hg dom]
  split
  · exact cons_outer_nil_right _
  · exact spikes_outer_nil_right _

theorem all_events_empty (c : communicator) (g : gathered_vector) (hg : g.values = []) :
    all_events c g = [] := by
  unfold all_events
  rw [flatMap_congr_mem (fun d _ => events_for_domain_empty _ _ g d hg)]
  exact flatMap_const_nil _

end QueueLemmas

section MinDelayLemmas

theorem foldl_min_le_init {γ : Type _} [LinearOrder γ] :
    ∀ (l : List γ) (a : γ), l.foldl min a ≤ a
  | [], _ => le_rfl
  | x :: l, a => le_trans (foldl_min_le_init l (min a x)) (min_le_left a x)

theorem foldl_min_le_mem {γ : Type _} [LinearOrder γ] :
    ∀ (l : List γ) (a x : γ), x ∈ l → l.foldl min a ≤ x
  | [], _, x, hx => absurd hx (List.not_mem_nil x)
  | y :: l, a, x, hx => by
      rcases List.mem_cons.mp hx with rfl | hx2
      · exact le_trans (foldl_min_le_init l (min a x)) (min_le_right a x)
      · exact foldl_min_le_mem l (min a y) x hx2

theorem foldl_min_attained {γ : Type _} [LinearOrder γ] :
    ∀ (l : List γ) (a : γ), l.foldl min a = a ∨ ∃ x ∈ l, l.foldl min a = x
  | [], _ => Or.inl rfl
  | y :: l, a => by
      rcases foldl_min_attained l (min a y) with h | ⟨x, hx, hfx⟩
      · rcases le_total a y with hay | hya
        · exact Or.inl (h.trans (min_eq_left hay))
        · exact Or.inr ⟨y, List.mem_cons_self y l, h.trans (min_eq_right hya)⟩
      · exact Or.inr ⟨x, List.mem_cons_of_mem y hx, hfx⟩

theorem local_min_delay_eq_map (cs : List connection) :
    local_min_delay cs
      = (cs.map (fun c => ((c.delay : ℚ) : time_inf))).foldl min
          ((time_max : ℚ) : time_inf) := by
  unfold local_min_delay
  rw [List.foldl_map]

theorem min_delay_world_le (tables : List (List connection)) (t : List connection)
    (ht : t ∈ tables) : min_delay_world tables ≤ local_min_delay t := by
  unfold min_delay_world dist_min
  exact foldl_min_le_mem _ _ _ (List.mem_map_of_mem _ ht)

theorem local_min_delay_le (cs : List connection) (c : connection) (hc : c ∈ cs) :
    local_min_delay cs ≤ ((c.delay : ℚ) : time_inf) := by
  rw [local_min_delay_eq_map]
  exact foldl_min_le_mem _ _ _ (List.mem_map_of_mem _ hc)

theorem min_delay_world_cases (tables : List (List connection)) :
    min_delay_world tables = ⊤ ∨
      ∃ t ∈ tables, min_delay_world tables = local_min_delay t := by
  unfold min_delay_world dist_min
  rcases foldl_min_attained (tables.map local_min_delay) ⊤ with h | ⟨x, hx, hfx⟩
  · exact Or.inl h
  · rw [List.mem_map] at hx
    obtain ⟨t, ht, rfl⟩ := hx
    exact Or.inr ⟨t, ht, hfx⟩

theorem local_min_delay_cases (cs : List connection) :
    local_min_delay cs = ((time_max : ℚ) : time_inf) ∨
      ∃ c ∈ cs, local_min_delay cs = ((c.delay : ℚ) : time_inf) := by
  rw [local_min_delay_eq_map]
  rcases foldl_min_attained (cs.map (fun c => ((c.delay : ℚ) : time_inf)))
      ((time_max : ℚ) : time_inf) with h | ⟨x, hx, hfx⟩
  · exact Or.inl h
  · rw [List.mem_map] at hx
    obtain ⟨c, hc, rfl⟩ := hx
    exact Or.inr ⟨c, hc, hfx⟩

end MinDelayLemmas

section ExchangeLemmas

/-- A sequence of `exchange` calls, threading the communicator state and
collecting the returned gathered vectors. -/
def run_exchanges : communicator → List (List (List spike)) →
    List gathered_vector × communicator
  | c, [] => ([], c)
  | c, w :: ws =>
      let r := c.exchange w
      let rest := run_exchanges r.2 ws
      (r.1 :: rest.1, rest.2)

theorem run_exchanges_num_spikes : ∀ (ws : List (List (List spike))) (c : communicator),
    ((run_exchanges c ws).2).num_spikes_
      = c.num_spikes_ + (((run_exchanges c ws).1).map (fun g => g.values.length)).sum
  | [], c => by simp [run_exchanges]
  | w :: ws, c => by
      simp only [run_exchanges]
      rw [run_exchanges_num_spikes ws]
      simp only [communicator.exchange, List.map_cons, List.sum_cons]
      omega

theorem offs_eq_take_sum : ∀ (ls : List (List spike)) (d : Nat),
    offs ls d = ((ls.map (fun l => l.length)).take d).sum
  | ls, 0 => by simp [offs_zero]
  | [], d + 1 => by simp [offs]
  | l :: ls, d + 1 => by
      simp only [offs, List.map_cons, List.take_succ_cons, List.sum_cons]
      rw [offs_eq_take_sum ls d]

theorem gather_partition_getD (locals : List (List spike)) (e : Nat)
    (he : e ≤ locals.length) :
    (gather_spikes locals).partition.getD e 0 = offs locals e := by
  show (make_index (locals.map (fun l => l.length))).getD e 0 = _
  rw [make_index_getD _ e (by simpa using he), offs_eq_take_sum]

theorem gather_slice (locals : List (List spike)) (d : Nat) (hd : d < locals.length) :
    sliceOf (gather_spikes locals).values ((gather_spikes locals).partition.getD d 0)
        ((gather_spikes locals).partition.getD (d + 1) 0)
      = locals.getD d [] := by
  rw [gather_partition_getD locals d (by omega), gather_partition_getD locals (d + 1) (by omega)]
  exact sliceOf_flatten locals d hd

theorem getD_map {β : Type _} {f : List spike → β} (l : List (List spike)) (d : Nat)
    (hd : d < l.length) (dflt : β) :
    (l.map f).getD d dflt = f (l.getD d []) := by
  rw [List.getD_eq_getElem _ _ (by simpa using hd), List.getD_eq_getElem _ _ hd,
    List.getElem_map]

end ExchangeLemmas

section StrategyLemmas

/-- Per-domain event list with a forced strategy: `σ dom = true` forces the
connections-outer branch, `false` the spikes-outer branch. -/
def events_for_domain_with (σ : Nat → Bool) (conns : List connection) (cpart : List Nat)
    (g : gathered_vector) (dom : Nat) : List pse_event :=
  if σ dom then cons_outer (conn_slice conns cpart dom) (spike_slice g dom)
  else spikes_outer (conn_slice conns cpart dom) (spike_slice g dom)

/-- All events of one `make_event_queues` call under a forced per-domain
strategy choice. -/
def all_events_with (σ : Nat → Bool) (c : communicator) (g : gathered_vector) :
    List pse_event :=
  (List.range c.num_domains_).flatMap
    (fun dom => events_for_domain_with σ c.connections_ c.connection_part_ g dom)

/-- The strategy the code actually selects per domain:
the predicate `cons.size() < spks.size()` of communicator.hpp line 211. -/
def actual_strategy (c : communicator) (g : gathered_vector) : Nat → Bool :=
  fun dom => decide ((conn_slice c.connections_ c.connection_part_ dom).length
    < (spike_slice g dom).length)

theorem events_for_domain_eq_with (conns : List connection) (cpart : List Nat)
    (g : gathered_vector) (dom : Nat) :
    events_for_domain conns cpart g dom
      = events_for_domain_with
          (fun d => decide ((conn_slice conns cpart d).length < (spike_slice g d).length))
          conns cpart g dom := by
  simp only [events_for_domain, events_for_domain_with]
  by_cases h : (conn_slice conns cpart dom).length < (spike_slice g dom).length
  · simp [h]
  · simp [h]

theorem all_events_eq_with (c : communicator) (g : gathered_vector) :
    all_events c g = all_events_with (actual_strategy c g) c g := by
  unfold all_events all_events_with actual_strategy
  exact flatMap_congr_mem (fun dom _ => events_for_domain_eq_with _ _ g dom)

/-- Canonical one-event-per-matched-pair stream over all source domains. -/
def all_pairs (c : communicator) (g : gathered_vector) : List pse_event :=
  (List.range c.num_domains_).flatMap
    (fun dom => pairs_cons (conn_slice c.connections_ c.connection_part_ dom)
      (spike_slice g dom))

theorem events_for_domain_with_perm (σ : Nat → Bool) (conns : List connection)
    (cpart : List Nat) (g : gathered_vector) (dom : Nat)
    (hc : List.Pairwise (fun x y => cm_lt y.source x.source = false)
      (conn_slice conns cpart dom))
    (hs : List.Sorted sp_le (spike_slice g dom)) :
    (events_for_domain_with σ conns cpart g dom).Perm
      (pairs_cons (conn_slice conns cpart dom) (spike_slice g dom)) := by
  unfold events_for_domain_with
  split
  · rw [cons_outer_eq_pairs _ _ hc hs]
  · rw [spikes_outer_eq_pairs _ _ hc hs]
    exact (pairs_perm _ _).symm

end StrategyLemmas

section CtorMembership

theorem ctor_mem_decomp (rec : recipe) (dd : domain_decomposition) (nd : Nat)
    (hgd : ∀ gid, dd.gid_domain gid < nd) :
    ∀ cn ∈ (communicator.ctor rec dd nd).connections_,
      cn ∈ flat_conns rec dd := by
  intro cn hcn
  rw [ctor_connections_eq, List.mem_flatten] at hcn
  obtain ⟨l, hl, hcnl⟩ := hcn
  rw [List.mem_map] at hl
  obtain ⟨d, hd, rfl⟩ := hl
  have hdn : d < nd := List.mem_range.mp hd
  unfold sortConn at hcnl
  rw [List.mem_insertionSort] at hcnl
  rw [scattered_slice dd.gid_domain nd (flat_conns rec dd)
    (fun c _ => hgd c.source.gid) d hdn] at hcnl
  exact (List.mem_filter.mp hcnl).1

theorem ctor_index_lt (rec : recipe) (dd : domain_decomposition) (nd : Nat)
    (hgd : ∀ gid, dd.gid_domain gid < nd) :
    ∀ cn ∈ (communicator.ctor rec dd nd).connections_,
      cn.index_on_domain < (communicator.ctor rec dd nd).num_local_cells_ :=
  fun cn hcn =>
    flat_conns_index_lt rec dd cn (ctor_mem_decomp rec dd nd hgd cn hcn)

theorem ctor_slice_sorted (rec : recipe) (dd : domain_decomposition) (nd : Nat)
    (hgd : ∀ gid, dd.gid_domain gid < nd) (d : Nat) (hd : d < nd) :
    List.Sorted conn_le (conn_slice (communicator.ctor rec dd nd).connections_
      (communicator.ctor rec dd nd).connection_part_ d) := by
  rw [ctor_slice rec dd nd (fun c _ => hgd c.source.gid) d hd]
  exact List.sorted_insertionSort conn_le _

theorem ctor_mem_iff (rec : recipe) (dd : domain_decomposition) (nd : Nat)
    (hgd : ∀ gid, dd.gid_domain gid < nd) (cn : connection) (d : Nat) (hd : d < nd) :
    cn ∈ conn_slice (communicator.ctor rec dd nd).connections_
        (communicator.ctor rec dd nd).connection_part_ d
      ↔ (cn ∈ flat_conns rec dd ∧ dd.gid_domain cn.source.gid = d) := by
  rw [ctor_slice rec dd nd (fun c _ => hgd c.source.gid) d hd]
  unfold sortConn
  rw [List.mem_insertionSort, List.mem_filter]
  simp [beq_iff_eq]

end CtorMembership

section ClaimHelpers

theorem sorted_src_between {l : List connection} (h : List.Sorted conn_le l) :
    ∀ i j k : Nat, i ≤ j → j ≤ k → k < l.length →
    (l.getD i default).source = (l.getD k default).source →
    (l.getD j default).source = (l.getD i default).source := by
  intro i j k hij hjk hk heq
  have hsrc := sorted_conn_src h
  have hmono : ∀ a b : Nat, a ≤ b → b < l.length →
      cm_lt (l.getD b default).source (l.getD a default).source = false := by
    intro a b hab hb
    rcases Nat.eq_or_lt_of_le hab with rfl | hlt
    · exact cm_lt_irrefl _
    · have ha : a < l.length := by omega
      have := (List.pairwise_iff_getElem.mp hsrc) a b ha hb hlt
      rw [List.getD_eq_getElem _ _ ha, List.getD_eq_getElem _ _ hb]
      exact this
  have h1 : cm_lt (l.getD j default).source (l.getD i default).source = false :=
    hmono i j hij (by omega)
  have h2 := hmono j k hjk hk
  rw [← heq] at h2
  exact cm_eq_of_not_lt h1 h2

end ClaimHelpers

section Claims

/-- Claim C1, counterexample: with one domain and zero connections globally,
`min_delay` returns `std::numeric_limits<time_type>::max()`, a finite value,
and not the time type's real infinity `⊤` — refuting the claim that
`min_delay` returns `+∞` when there are zero connections globally. -/
theorem min_delay_empty_not_infinity :
    min_delay_world [[]] = ((time_max : ℚ) : time_inf) ∧
      min_delay_world [[]] ≠ (⊤ : time_inf) := by
  have h1 : min_delay_world [[]] = ((time_max : ℚ) : time_inf) := by
    show min ⊤ ((time_max : ℚ) : time_inf) = ((time_max : ℚ) : time_inf)
    exact min_eq_right le_top
  exact ⟨h1, by rw [h1]; exact WithTop.coe_ne_top⟩

/-- Claim C1, amended: `min_delay` is the distributed min reduction applied to
the per-domain folds that start from `numeric_limits::max()`.  With at least
one domain it is a lower bound of every connection delay of every domain, it
is attained at some connection when one exists (hence equals the minimum delay
over the union of every domain's connection table, delays not exceeding the
finite maximum), and when there are zero connections globally it equals
`numeric_limits::max()` — the largest finite time value, not `+∞`. -/
theorem min_delay_spec (tables : List (List connection)) (hne : tables ≠ [])
    (hb : ∀ t ∈ tables, ∀ c ∈ t, (c.delay : ℚ) ≤ time_max) :
    ((∀ t ∈ tables, t = []) → min_delay_world tables = ((time_max : ℚ) : time_inf)) ∧
    (∀ t ∈ tables, ∀ c ∈ t, min_delay_world tables ≤ ((c.delay : ℚ) : time_inf)) ∧
    ((∃ t ∈ tables, t ≠ []) →
      ∃ t ∈ tables, ∃ c ∈ t, min_delay_world tables = ((c.delay : ℚ) : time_inf)) := by
  obtain ⟨t0, ht0⟩ : ∃ t, t ∈ tables := by
    cases tables with
    | nil => exact absurd rfl hne
    | cons t ts => exact ⟨t, List.mem_cons_self t ts⟩
  refine ⟨?_, ?_, ?_⟩
  · intro hall
    have hle : min_delay_world tables ≤ ((time_max : ℚ) : time_inf) := by
      have h := min_delay_world_le tables t0 ht0
      rw [hall t0 ht0] at h
      exact h
    rcases min_delay_world_cases tables with h | ⟨t, ht, hft⟩
    · rw [h] at hle
      exact absurd (top_le_iff.mp hle) WithTop.coe_ne_top
    · rw [hft, hall t ht]
      rfl
  · intro t ht c hc
    exact le_trans (min_delay_world_le tables t ht) (local_min_delay_le t c hc)
  · rintro ⟨t1, ht1, hne1⟩
    obtain ⟨c1, hc1⟩ : ∃ c, c ∈ t1 := by
      cases t1 with
      | nil => exact absurd rfl hne1
      | cons c cs => exact ⟨c, List.mem_cons_self c cs⟩
    have hle1 : min_delay_world tables ≤ ((c1.delay : ℚ) : time_inf) :=
      le_trans (min_delay_world_le tables t1 ht1) (local_min_delay_le t1 c1 hc1)
    rcases min_delay_world_cases tables with h | ⟨t, ht, hft⟩
    · rw [h] at hle1
      exact absurd (top_le_iff.mp hle1) WithTop.coe_ne_top
    · rcases local_min_delay_cases t with h2 | ⟨c, hc, hfc⟩
      · refine ⟨t1, ht1, c1, hc1, ?_⟩
        have h3 : ((time_max : ℚ) : time_inf) ≤ ((c1.delay : ℚ) : time_inf) := by
          rw [← h2, ← hft]
          exact hle1
        have h5 : time_max ≤ c1.delay := WithTop.coe_le_coe.mp h3
        have h6 : c1.delay = time_max := le_antisymm (hb t1 ht1 c1 hc1) h5
        rw [hft, h2, h6]
      · exact ⟨t, ht, c, hc, by rw [hft, hfc]⟩

theorem min_delay_spec_witness :
    min_delay_world [[⟨⟨0, 0⟩, ⟨0, 0⟩, 1, 2, 0⟩]] ≤ ((2 : ℚ) : time_inf) :=
  (min_delay_spec [[⟨⟨0, 0⟩, ⟨0, 0⟩, 1, 2, 0⟩]] (by simp)
    (by
      intro t ht c hc
      simp at ht
      subst ht
      simp at hc
      subst hc
      norm_num [time_max])).2.1
    [⟨⟨0, 0⟩, ⟨0, 0⟩, 1, 2, 0⟩] (by simp) ⟨⟨0, 0⟩, ⟨0, 0⟩, 1, 2, 0⟩ (by simp)

/-- Claim C3: for a source domain whose connection slice and spike slice are
each sorted by source, `make_event_queues` pairs every spike with every
connection of equal source, and the strategy is chosen by `|cons| < |spks|`:
when the predicate holds the loop walks connections outer (yielding exactly
`pairs_cons`, one event per connection and equal-source spike, found by the
`equal_range` probe into the spikes), otherwise it walks spikes outer
(yielding exactly `pairs_spks`). -/
theorem strategy_selection (conns : List connection) (cpart : List Nat)
    (g : gathered_vector) (dom : Nat)
    (hc : List.Pairwise (fun x y => cm_lt y.source x.source = false)
      (conn_slice conns cpart dom))
    (hs : List.Sorted sp_le (spike_slice g dom)) :
    ((conn_slice conns cpart dom).length < (spike_slice g dom).length →
       events_for_domain conns cpart g dom
         = pairs_cons (conn_slice conns cpart dom) (spike_slice g dom)) ∧
    (¬ (conn_slice conns cpart dom).length < (spike_slice g dom).length →
       events_for_domain conns cpart g dom
         = pairs_spks (conn_slice conns cpart dom) (spike_slice g dom)) := by
  constructor
  · intro h
    simp only [events_for_domain]
    rw [if_pos h]
    exact cons_outer_eq_pairs _ _ hc hs
  · intro h
    simp only [events_for_domain]
    rw [if_neg h]
    exact spikes_outer_eq_pairs _ _ hc hs

theorem strategy_selection_witness :
    events_for_domain [⟨⟨0, 0⟩, ⟨0, 0⟩, 1, 2, 0⟩] [0, 1]
        (gathered_vector.mk [⟨⟨0, 0⟩, 5⟩] [0, 1]) 0
      = pairs_spks (conn_slice [⟨⟨0, 0⟩, ⟨0, 0⟩, 1, 2, 0⟩] [0, 1] 0)
          (spike_slice (gathered_vector.mk [⟨⟨0, 0⟩, 5⟩] [0, 1]) 0) :=
  (strategy_selection [⟨⟨0, 0⟩, ⟨0, 0⟩, 1, 2, 0⟩] [0, 1]
    (gathered_vector.mk [⟨⟨0, 0⟩, 5⟩] [0, 1]) 0 (by decide) (by decide)).2 (by decide)

/-- Claim C7: `exchange` sorts the local spikes by source before handing them
to `gather_spikes`; given the transport contract (each per-domain slice of the
gathered array is that domain's input in input order), every per-domain slice
of the returned global spike array is sorted by source, while the full value
array need not be globally sorted. -/
theorem exchange_spec :
    (∀ (c : communicator) (world : List (List spike)),
       (c.exchange world).1 = gather_spikes (world.map sort_spikes) ∧
       ∀ l : List spike, List.Sorted sp_le (sort_spikes l)) ∧
    (∀ (c : communicator) (world : List (List spike)) (d : Nat), d < world.length →
       sliceOf (c.exchange world).1.values
           ((c.exchange world).1.partition.getD d 0)
           ((c.exchange world).1.partition.getD (d + 1) 0)
         = sort_spikes (world.getD d []) ∧
       List.Sorted sp_le (sliceOf (c.exchange world).1.values
           ((c.exchange world).1.partition.getD d 0)
           ((c.exchange world).1.partition.getD (d + 1) 0))) ∧
    (∃ (c : communicator) (world : List (List spike)),
       ¬ List.Sorted sp_le (c.exchange world).1.values) := by
  refine ⟨?_, ?_, ?_⟩
  · intro c world
    exact ⟨rfl, fun l => List.sorted_insertionSort sp_le l⟩
  · intro c world d hd
    have hstep : sliceOf (c.exchange world).1.values
        ((c.exchange world).1.partition.getD d 0)
        ((c.exchange world).1.partition.getD (d + 1) 0)
        = sort_spikes (world.getD d []) := by
      show sliceOf (gather_spikes (world.map sort_spikes)).values
          ((gather_spikes (world.map sort_spikes)).partition.getD d 0)
          ((gather_spikes (world.map sort_spikes)).partition.getD (d + 1) 0) = _
      rw [gather_slice (world.map sort_spikes) d (by simpa using hd)]
      exact getD_map world d hd []
    refine ⟨hstep, ?_⟩
    have hsorted : List.Sorted sp_le (sort_spikes (world.getD d [])) :=
      List.sorted_insertionSort sp_le _
    rwa [← hstep] at hsorted
  · refine ⟨communicator.mk 0 0 [] [] [] 0,
      [[spike.mk ⟨1, 0⟩ 0], [spike.mk ⟨0, 0⟩ 0]], ?_⟩
    decide

theorem exchange_spec_witness :
    List.Sorted sp_le (sliceOf
        ((communicator.mk 0 0 [] [] [] 0).exchange
          [[spike.mk ⟨1, 0⟩ 0, spike.mk ⟨0, 0⟩ 0]]).1.values
        (((communicator.mk 0 0 [] [] [] 0).exchange
          [[spike.mk ⟨1, 0⟩ 0, spike.mk ⟨0, 0⟩ 0]]).1.partition.getD 0 0)
        (((communicator.mk 0 0 [] [] [] 0).exchange
          [[spike.mk ⟨1, 0⟩ 0, spike.mk ⟨0, 0⟩ 0]]).1.partition.getD 1 0)) :=
  (exchange_spec.2.1 (communicator.mk 0 0 [] [] [] 0)
    [[spike.mk ⟨1, 0⟩ 0, spike.mk ⟨0, 0⟩ 0]] 0 (by decide)).2

/-- Claim C8: after a `reset` the spike counter is zero and neither the
connection table nor the partitions are touched; after any sequence of
`exchange` calls from that state, `num_spikes()` equals the sum of the sizes
of the global spike arrays those calls returned. -/
theorem num_spikes_spec (c : communicator) (ws : List (List (List spike))) :
    ((run_exchanges c.reset ws).2).num_spikes
      = (((run_exchanges c.reset ws).1).map (fun g => g.values.length)).sum ∧
    c.reset.num_spikes = 0 ∧
    c.reset.connections_ = c.connections_ ∧
    c.reset.connection_part_ = c.connection_part_ ∧
    c.reset.index_divisions_ = c.index_divisions_ := by
  refine ⟨?_, rfl, rfl, rfl, rfl⟩
  show ((run_exchanges c.reset ws).2).num_spikes_ = _
  rw [run_exchanges_num_spikes ws c.reset]
  show 0 + _ = _
  omega

/-- Claim C9: `make_event_queues` only appends to the caller-owned queues —
every pre-existing queue content is a prefix of the new content — and calling
it with an empty global spike array leaves every queue exactly unchanged. -/
theorem make_event_queues_frame :
    (∀ (c : communicator) (g : gathered_vector) (queues : List (List pse_event)) (i : Nat),
       ∃ t, (c.make_event_queues g queues).getD i [] = queues.getD i [] ++ t) ∧
    (∀ (c : communicator) (g : gathered_vector) (queues : List (List pse_event)),
       g.values = [] → c.make_event_queues g queues = queues) := by
  constructor
  · intro c g queues i
    rw [make_event_queues_eq_push]
    exact push_events_frame _ _ _
  · intro c g queues hg
    rw [make_event_queues_eq_push, all_events_empty c g hg]
    rfl

theorem make_event_queues_frame_witness :
    (communicator.mk 1 1 [] [0, 0] [] 0).make_event_queues
        (gathered_vector.mk [] [0, 0]) [[]] = [[]] :=
  make_event_queues_frame.2 (communicator.mk 1 1 [] [0, 0] [] 0)
    (gathered_vector.mk [] [0, 0]) [[]] rfl

/-- Claim C2: per matched `(connection, spike)` pair exactly one event is
appended: the emitted stream is, as a multiset, the canonical one-event-per-
pair stream `all_pairs`; every canonical event is `connection.make_event
(spike)` for its pair, delivered at index `index_on_domain` with time exactly
`spike.time + connection.delay`; and each queue receives precisely the emitted
events targeted at it, appended after its previous content. -/
theorem make_event_queues_exact (rec : recipe) (dd : domain_decomposition) (nd : Nat)
    (g : gathered_vector) (hgd : ∀ gid, dd.gid_domain gid < nd)
    (hs : ∀ dom, dom < nd → List.Sorted sp_le (spike_slice g dom)) :
    (all_events (communicator.ctor rec dd nd) g).Perm
      (all_pairs (communicator.ctor rec dd nd) g) ∧
    (∀ e ∈ all_pairs (communicator.ctor rec dd nd) g,
       ∃ cn ∈ (communicator.ctor rec dd nd).connections_, ∃ s ∈ g.values,
         cn.source = s.source ∧ e = cn.make_event s ∧
         e.target = cn.index_on_domain ∧ e.time = s.time + cn.delay) ∧
    (∀ queues : List (List pse_event),
       queues.length = (communicator.ctor rec dd nd).num_local_cells_ →
       ∀ i, ((communicator.ctor rec dd nd).make_event_queues g queues).getD i []
         = queues.getD i []
           ++ (all_events (communicator.ctor rec dd nd) g).filter
               (fun e => e.target == i)) := by
  refine ⟨?_, ?_, ?_⟩
  · rw [all_events_eq_with]
    unfold all_events_with all_pairs
    refine flatMap_perm_mem ?_
    intro dom hdom
    have hdn : dom < nd := List.mem_range.mp hdom
    exact events_for_domain_with_perm _ _ _ g dom
      (sorted_conn_src (ctor_slice_sorted rec dd nd hgd dom hdn)) (hs dom hdn)
  · intro e he
    unfold all_pairs at he
    rw [List.mem_flatMap] at he
    obtain ⟨dom, _, hep⟩ := he
    unfold pairs_cons at hep
    rw [List.mem_flatMap] at hep
    obtain ⟨cn, hcn, hem⟩ := hep
    rw [List.mem_map] at hem
    obtain ⟨s, hsf, rfl⟩ := hem
    rw [List.mem_filter] at hsf
    obtain ⟨hsslice, hbeq⟩ := hsf
    have hsrc : s.source = cn.source := by simpa using hbeq
    exact ⟨cn, (sliceOf_sublist _ _ _).subset hcn, s,
      (sliceOf_sublist _ _ _).subset hsslice, hsrc.symm, rfl, rfl, rfl⟩
  · intro queues hq i
    rw [make_event_queues_eq_push]
    refine push_events_getD _ _ i ?_
    intro e he
    obtain ⟨cn, hcn, s, _, heq⟩ := all_events_sound _ g e he
    have ht : e.target = cn.index_on_domain := by rw [heq]; rfl
    rw [ht, hq]
    exact ctor_index_lt rec dd nd hgd cn hcn

theorem make_event_queues_exact_witness :
    ((communicator.ctor ⟨fun g => if g = 0 then [⟨⟨0, 0⟩, ⟨0, 0⟩, 1, 2⟩] else []⟩
        ⟨[[0]], fun _ => 0⟩ 1).make_event_queues
          (gathered_vector.mk [⟨⟨0, 0⟩, 5⟩] [0, 1]) [[]]).getD 0 []
      = [] ++ (all_events (communicator.ctor
            ⟨fun g => if g = 0 then [⟨⟨0, 0⟩, ⟨0, 0⟩, 1, 2⟩] else []⟩
            ⟨[[0]], fun _ => 0⟩ 1)
          (gathered_vector.mk [⟨⟨0, 0⟩, 5⟩] [0, 1])).filter (fun e => e.target == 0) :=
  (make_event_queues_exact ⟨fun g => if g = 0 then [⟨⟨0, 0⟩, ⟨0, 0⟩, 1, 2⟩] else []⟩
    ⟨[[0]], fun _ => 0⟩ 1 (gathered_vector.mk [⟨⟨0, 0⟩, 5⟩] [0, 1])
    (fun _ => Nat.zero_lt_one)
    (fun dom hdom => by
      have h0 : dom = 0 := by omega
      subst h0
      decide)).2.2 [[]] rfl 0

/-- Claim C4: the multiset of `(target, weight, time)` events that
`make_event_queues` appends across all queues does not depend on the strategy
chosen per domain: for a constructor-built connection table and sorted
per-domain spike slices, any two forced per-domain strategy choices produce
permutations of each other, and the function's actual appended stream is the
instance at the code's size predicate. -/
theorem strategy_independent (rec : recipe) (dd : domain_decomposition) (nd : Nat)
    (g : gathered_vector) (hgd : ∀ gid, dd.gid_domain gid < nd)
    (hs : ∀ dom, dom < nd → List.Sorted sp_le (spike_slice g dom)) :
    (∀ σ σ2 : Nat → Bool,
       (all_events_with σ (communicator.ctor rec dd nd) g).Perm
         (all_events_with σ2 (communicator.ctor rec dd nd) g)) ∧
    (∀ queues : List (List pse_event),
       (communicator.ctor rec dd nd).make_event_queues g queues
         = push_events queues (all_events_with
             (actual_strategy (communicator.ctor rec dd nd) g)
             (communicator.ctor rec dd nd) g)) := by
  constructor
  · intro σ σ2
    unfold all_events_with
    refine flatMap_perm_mem ?_
    intro dom hdom
    have hdn : dom < nd := List.mem_range.mp hdom
    have hcs := sorted_conn_src (ctor_slice_sorted rec dd nd hgd dom hdn)
    exact (events_for_domain_with_perm σ _ _ g dom hcs (hs dom hdn)).trans
      (events_for_domain_with_perm σ2 _ _ g dom hcs (hs dom hdn)).symm
  · intro queues
    rw [make_event_queues_eq_push, all_events_eq_with]

theorem strategy_independent_witness :
    (all_events_with (fun _ => true)
        (communicator.ctor ⟨fun g => if g = 0 then [⟨⟨0, 0⟩, ⟨0, 0⟩, 1, 2⟩] else []⟩
          ⟨[[0]], fun _ => 0⟩ 1)
        (gathered_vector.mk [⟨⟨0, 0⟩, 5⟩] [0, 1])).Perm
      (all_events_with (fun _ => false)
        (communicator.ctor ⟨fun g => if g = 0 then [⟨⟨0, 0⟩, ⟨0, 0⟩, 1, 2⟩] else []⟩
          ⟨[[0]], fun _ => 0⟩ 1)
        (gathered_vector.mk [⟨⟨0, 0⟩, 5⟩] [0, 1])) :=
  (strategy_independent ⟨fun g => if g = 0 then [⟨⟨0, 0⟩, ⟨0, 0⟩, 1, 2⟩] else []⟩
    ⟨[[0]], fun _ => 0⟩ 1 (gathered_vector.mk [⟨⟨0, 0⟩, 5⟩] [0, 1])
    (fun _ => Nat.zero_lt_one)
    (fun dom hdom => by
      have h0 : dom = 0 := by omega
      subst h0
      decide)).1 (fun _ => true) (fun _ => false)

/-- Claim C5: after construction, `connection_part` is monotone non-decreasing
with value `0` at index `0` and the total connection count at index
`num_domains`, and a stored connection lies in domain `d`'s slice exactly when
`gid_domain` maps its source gid to `d`. -/
theorem connection_partition_spec (rec : recipe) (dd : domain_decomposition) (nd : Nat)
    (hgd : ∀ gid, dd.gid_domain gid < nd) :
    (∀ d e, d ≤ e → e ≤ nd →
       (communicator.ctor rec dd nd).connection_part_.getD d 0
         ≤ (communicator.ctor rec dd nd).connection_part_.getD e 0) ∧
    (communicator.ctor rec dd nd).connection_part_.getD 0 0 = 0 ∧
    (communicator.ctor rec dd nd).connection_part_.getD nd 0
      = (communicator.ctor rec dd nd).connections_.length ∧
    (∀ cn ∈ (communicator.ctor rec dd nd).connections_, ∀ d, d < nd →
       (dd.gid_domain cn.source.gid = d ↔
         cn ∈ conn_slice (communicator.ctor rec dd nd).connections_
           (communicator.ctor rec dd nd).connection_part_ d)) := by
  refine ⟨?_, ?_, ?_, ?_⟩
  · intro d e hde he
    exact conn_part_mono dd.gid_domain nd (flat_conns rec dd) hde he
  · exact conn_part_zero dd.gid_domain nd (flat_conns rec dd)
  · rw [ctor_connections_length rec dd nd (fun c _ => hgd c.source.gid)]
    exact conn_part_top dd.gid_domain nd (flat_conns rec dd) (fun c _ => hgd c.source.gid)
  · intro cn hcn d hd
    constructor
    · intro hgdd
      rw [ctor_mem_iff rec dd nd hgd cn d hd]
      exact ⟨ctor_mem_decomp rec dd nd hgd cn hcn, hgdd⟩
    · intro hmem
      exact ((ctor_mem_iff rec dd nd hgd cn d hd).mp hmem).2

theorem connection_partition_spec_witness :
    (communicator.ctor ⟨fun g => if g = 0 then [⟨⟨0, 0⟩, ⟨0, 0⟩, 1, 2⟩] else []⟩
        ⟨[[0]], fun _ => 0⟩ 1).connection_part_.getD 1 0
      = (communicator.ctor ⟨fun g => if g = 0 then [⟨⟨0, 0⟩, ⟨0, 0⟩, 1, 2⟩] else []⟩
          ⟨[[0]], fun _ => 0⟩ 1).connections_.length :=
  (connection_partition_spec ⟨fun g => if g = 0 then [⟨⟨0, 0⟩, ⟨0, 0⟩, 1, 2⟩] else []⟩
    ⟨[[0]], fun _ => 0⟩ 1 (fun _ => Nat.zero_lt_one)).2.2.1

/-- Claim C6: after construction, each source-domain slice of the connection
array is sorted by the total connection order — hence in non-decreasing
`source` order — and equal-source runs are contiguous within the slice. -/
theorem bucket_sorted (rec : recipe) (dd : domain_decomposition) (nd : Nat)
    (hgd : ∀ gid, dd.gid_domain gid < nd) (d : Nat) (hd : d < nd) :
    List.Sorted conn_le (conn_slice (communicator.ctor rec dd nd).connections_
        (communicator.ctor rec dd nd).connection_part_ d) ∧
    (∀ i j k : Nat, i ≤ j → j ≤ k →
       k < (conn_slice (communicator.ctor rec dd nd).connections_
         (communicator.ctor rec dd nd).connection_part_ d).length →
       ((conn_slice (communicator.ctor rec dd nd).connections_
         (communicator.ctor rec dd nd).connection_part_ d).getD i default).source
         = ((conn_slice (communicator.ctor rec dd nd).connections_
             (communicator.ctor rec dd nd).connection_part_ d).getD k default).source →
       ((conn_slice (communicator.ctor rec dd nd).connections_
         (communicator.ctor rec dd nd).connection_part_ d).getD j default).source
         = ((conn_slice (communicator.ctor rec dd nd).connections_
             (communicator.ctor rec dd nd).connection_part_ d).getD i default).source) := by
  have hsorted := ctor_slice_sorted rec dd nd hgd d hd
  exact ⟨hsorted, sorted_src_between hsorted⟩

theorem bucket_sorted_witness :
    List.Sorted conn_le (conn_slice
      (communicator.ctor ⟨fun g => if g = 0 then [⟨⟨0, 0⟩, ⟨0, 0⟩, 1, 2⟩] else []⟩
        ⟨[[0]], fun _ => 0⟩ 1).connections_
      (communicator.ctor ⟨fun g => if g = 0 then [⟨⟨0, 0⟩, ⟨0, 0⟩, 1, 2⟩] else []⟩
        ⟨[[0]], fun _ => 0⟩ 1).connection_part_ 0) :=
  (bucket_sorted ⟨fun g => if g = 0 then [⟨⟨0, 0⟩, ⟨0, 0⟩, 1, 2⟩] else []⟩
    ⟨[[0]], fun _ => 0⟩ 1 (fun _ => Nat.zero_lt_one) 0 (by decide)).1

/-- Claim C10: every connection stored by the constructor has
`index_on_domain` below `num_local_cells` (it is the flat position of the
destination cell in the group-by-group gid sequence), so when
`queues.size() = num_local_cells` every queue access
`queues[connection.index_on_domain]` made by `make_event_queues` is in
bounds. -/
theorem index_bounds (rec : recipe) (dd : domain_decomposition) (nd : Nat)
    (hgd : ∀ gid, dd.gid_domain gid < nd) :
    (∀ cn ∈ (communicator.ctor rec dd nd).connections_,
       cn.index_on_domain < (communicator.ctor rec dd nd).num_local_cells_) ∧
    (∀ (g : gathered_vector) (queues : List (List pse_event)),
       queues.length = (communicator.ctor rec dd nd).num_local_cells_ →
       ∀ e ∈ all_events (communicator.ctor rec dd nd) g,
         e.target < queues.length) := by
  refine ⟨ctor_index_lt rec dd nd hgd, ?_⟩
  intro g queues hq e he
  obtain ⟨cn, hcn, s, _, heq⟩ := all_events_sound _ g e he
  have ht : e.target = cn.index_on_domain := by rw [heq]; rfl
  rw [ht, hq]
  exact ctor_index_lt rec dd nd hgd cn hcn

theorem index_bounds_witness :
    (⟨⟨0, 0⟩, ⟨0, 0⟩, 1, 2, 0⟩ : connection).index_on_domain
      < (communicator.ctor ⟨fun g => if g = 0 then [⟨⟨0, 0⟩, ⟨0, 0⟩, 1, 2⟩] else []⟩
          ⟨[[0]], fun _ => 0⟩ 1).num_local_cells_ :=
  (index_bounds ⟨fun g => if g = 0 then [⟨⟨0, 0⟩, ⟨0, 0⟩, 1, 2⟩] else []⟩
    ⟨[[0]], fun _ => 0⟩ 1 (fun _ => Nat.zero_lt_one)).1
    ⟨⟨0, 0⟩, ⟨0, 0⟩, 1, 2, 0⟩ (by decide)

end Claims

end ArborComm
